/-
Verification of the paste-reformatter transformation pipeline.

The pipeline is embedded shallowly: strings are lists of characters
(`List Char`), the JavaScript regex-driven passes of
`src/markdownTransformer.ts` and `src/htmlTransformer.ts` are modelled as
explicit scanners over character lists, and the mutable
`appliedTransformations` flag is threaded as explicit state.  Regex
replacement with user-supplied patterns and browser-supplied services
(regex engine, DOM parser, serializer) are parameters of the embedded
functions, exactly as they are environment services of the source.
-/
import Mathlib

set_option maxRecDepth 4000

namespace PasteReformatter

/-- Characters matched by the JavaScript regex class `\s` (ECMAScript
WhiteSpace plus LineTerminator), identified by code point. -/
def isJsSpace (c : Char) : Bool :=
  let n := c.toNat
  n = 32 || n = 9 || n = 10 || n = 11 || n = 12 || n = 13 ||
  n = 160 || n = 0x1680 || (0x2000 ≤ n && n ≤ 0x200a) ||
  n = 0x2028 || n = 0x2029 || n = 0x202f || n = 0x205f || n = 0x3000 || n = 0xfeff

/-- ECMAScript LineTerminator characters: the positions after which the
multiline anchor of a JavaScript regex matches. -/
def isLineTerm (c : Char) : Bool :=
  let n := c.toNat
  n = 10 || n = 13 || n = 0x2028 || n = 0x2029

/-- Boolean list-prefix test (first argument is the candidate prefix). -/
def pfx : List Char → List Char → Bool
  | [], _ => true
  | _ :: _, [] => false
  | a :: as, b :: bs => a = b && pfx as bs

/-- Boolean substring test: does `t` occur contiguously inside `s`
(the semantics of JavaScript `String.prototype.includes`)? -/
def containsSeq (t : List Char) : List Char → Bool
  | [] => t.isEmpty
  | c :: cs => pfx t (c :: cs) || containsSeq t cs

/-- Split a character list at newline characters, the semantics of the
JavaScript `split('\n')` used by the empty-line removal step.  The result
is always non-empty; splitting the empty string yields one empty line. -/
def splitOnNl : List Char → List (List Char)
  | [] => [[]]
  | c :: cs =>
    if c = '\n' then [] :: splitOnNl cs
    else
      match splitOnNl cs with
      | [] => [[c]]
      | l :: ls => (c :: l) :: ls

/-- Join lines with newline separators, the semantics of the JavaScript
`join('\n')` used by the empty-line removal step. -/
def joinNl : List (List Char) → List Char
  | [] => []
  | [l] => l
  | l :: ls => l ++ '\n' :: joinNl ls

/-- JavaScript `String.prototype.trim`: drop `\s` characters from both
ends. -/
def jsTrim (s : List Char) : List Char :=
  ((s.dropWhile isJsSpace).reverse.dropWhile isJsSpace).reverse

/-- Fuelled global replacement of the literal character sequence `t` by
`r`, scanning left to right without overlap: the semantics of a
JavaScript global regex replace whose pattern is a literal with no
metacharacters.  The fuel only needs to exceed the input length. -/
def replaceSeqGo (t r : List Char) : Nat → List Char → List Char
  | 0, s => s
  | _ + 1, [] => []
  | f + 1, c :: cs =>
    if pfx t (c :: cs) then r ++ replaceSeqGo t r f ((c :: cs).drop t.length)
    else c :: replaceSeqGo t r f cs

/-- Global literal replacement of `t` by `r` in `s`. -/
def replaceSeq (t r s : List Char) : List Char :=
  replaceSeqGo t r (s.length + 1) s

/-! ## The heading scanner

`transformMarkdown` locates headings with the regex `^(#{1,6})\s` under the
`g` and `m` flags.  A match therefore sits at a line start, consists of a
maximal run of one to six `#` characters, and ends with one whitespace
character (which may itself be a line terminator).  Matches are located in
the input string only — the callback's output is substituted afterwards and
never rescanned — so the scan is modelled in two stages: `splitHeads`
computes the match structure (the text between matches, each match's hash
count and its trailing whitespace character), and `renderHeads` rebuilds
the output from per-match replacement levels, each match being replaced by
`'#'.repeat(newLevel) + ' '`. -/

/-- Length of the leading run of `#` characters. -/
def hashRun (s : List Char) : Nat :=
  (s.takeWhile (fun c => c = '#')).length

/-- Attempt to match `(#{1,6})\s` at the head of `s`: the maximal leading
hash run must have length one to six and be followed by a `\s` character.
Returns the hash count, the matched whitespace character and the rest. -/
def matchHead (s : List Char) : Option (Nat × Char × List Char) :=
  let n := hashRun s
  if 1 ≤ n ∧ n ≤ 6 then
    match s.drop n with
    | w :: rest => if isJsSpace w then some (n, w, rest) else none
    | [] => none
  else none

/-- Prepend a non-match character to a scan result: it extends the first
segment, or the trailing segment when there is no match. -/
def splitCons (c : Char) : List (List Char × Nat × Char) × List Char →
    List (List Char × Nat × Char) × List Char
  | ([], t) => ([], c :: t)
  | ((seg, n, w) :: ms, t) => ((c :: seg, n, w) :: ms, t)

/-- Fuelled scan for heading matches.  `b` records whether the current
position is a line start (string start, or just after a LineTerminator).
Returns the list of matches, each as (preceding segment, hash count,
matched whitespace character), together with the trailing segment. -/
def splitHeadsGo : Nat → Bool → List Char → List (List Char × Nat × Char) × List Char
  | 0, _, s => ([], s)
  | _ + 1, _, [] => ([], [])
  | f + 1, b, c :: cs =>
    if b then
      match matchHead (c :: cs) with
      | some (n, w, rest) =>
        let r := splitHeadsGo f (isLineTerm w) rest
        (([], n, w) :: r.1, r.2)
      | none => splitCons c (splitHeadsGo f (isLineTerm c) cs)
    else splitCons c (splitHeadsGo f (isLineTerm c) cs)

/-- Heading match structure of a string, scanned from a line start. -/
def splitHeads (b : Bool) (s : List Char) : List (List Char × Nat × Char) × List Char :=
  splitHeadsGo (s.length + 1) b s

/-- Rebuild the string from the match structure, replacing the i-th match
by `'#'.repeat(newLevel i) + ' '` as the source callback does (note the
matched whitespace character is always rendered as a plain space). -/
def renderHeads : List (List Char × Nat × Char) → List Nat → List Char → List Char
  | [], _, t => t
  | (seg, l, _) :: ms, [], t =>
    seg ++ List.replicate l '#' ++ ' ' :: renderHeads ms [] t
  | (seg, _, _) :: ms, n :: ns, t =>
    seg ++ List.replicate n '#' ++ ' ' :: renderHeads ms ns t

/-- Rebuild the original string from the match structure (each match was
`'#'.repeat(l) + w`). -/
def assembleHeads : List (List Char × Nat × Char) → List Char → List Char
  | [], t => t
  | (seg, l, w) :: ms, t => seg ++ List.replicate l '#' ++ w :: assembleHeads ms t

/-- The hash counts of the matches, in scan order. -/
def headLevels (ms : List (List Char × Nat × Char)) : List Nat :=
  ms.map (fun x => x.2.1)

/-- The mutable state of the heading-replacement callback in
`transformMarkdown`: the locals `delta` and `cascading` together with the
outer `appliedTransformations` variable the callback assigns to. -/
structure HeadSt where
  delta : Int
  casc : Bool
  ap : Bool
deriving Repr, DecidableEq

/-- Run a heading callback over the match levels left to right, threading
the state, and return the replacement levels with the final state. -/
def mapAccumHead (step : HeadSt → Nat → Nat × HeadSt) : HeadSt → List Nat → List Nat × HeadSt
  | st, [] => ([], st)
  | st, l :: ls =>
    let p := step st l
    let q := mapAccumHead step p.2 ls
    (p.1 :: q.1, q.2)

/-- The contextual-cascade callback (markdownTransformer.ts lines 52-73).
Note that the callback assigns `appliedTransformations = (newLevel !==
currentLevel)` on every heading, overwriting the previous value. -/
def ctxStep (contextLevel : Nat) (st : HeadSt) (currentLevel : Nat) : Nat × HeadSt :=
  if st.casc then
    let newLevel := (min ((currentLevel : Int) + st.delta) 6).toNat
    (newLevel, { st with ap := newLevel != currentLevel })
  else if currentLevel ≤ contextLevel then
    let newLevel := min (contextLevel + 1) 6
    (newLevel,
      { delta := (newLevel : Int) - (currentLevel : Int), casc := true,
        ap := newLevel != currentLevel })
  else
    (currentLevel, { st with ap := false })

/-- The max-heading-level callback (markdownTransformer.ts lines 78-105),
covering both the cascading branch and the independent-capping branch.
As in `ctxStep`, the changed flag is overwritten on every heading. -/
def maxStep (maxHeadingLevel : Nat) (cascadeHeadingLevels : Bool)
    (st : HeadSt) (currentLevel : Nat) : Nat × HeadSt :=
  if cascadeHeadingLevels then
    if st.casc then
      let newLevel := (min ((currentLevel : Int) + st.delta) 6).toNat
      (newLevel, { st with ap := newLevel != currentLevel })
    else if currentLevel < maxHeadingLevel then
      (maxHeadingLevel,
        { delta := (maxHeadingLevel : Int) - (currentLevel : Int), casc := true,
          ap := maxHeadingLevel != currentLevel })
    else
      (currentLevel, { st with ap := false })
  else
    let newLevel := max currentLevel maxHeadingLevel
    (newLevel, { st with ap := newLevel != currentLevel })

/-- The full heading-replacement pass: locate the matches, run the
callback over them, substitute the callback's results. -/
def headingReplace (step : HeadSt → Nat → Nat × HeadSt) (st : HeadSt)
    (s : List Char) : List Char × HeadSt :=
  let p := splitHeads true s
  let q := mapAccumHead step st (headLevels p.1)
  (renderHeads p.1 q.1 p.2, q.2)

/-! ## The escape-mode passes

When `escapeMarkdown` is set, `transformMarkdown` applies eleven global
regex substitutions in sequence (markdownTransformer.ts lines 114-141).
Each is modelled as a scanner over the character list.  Where a pattern
combines a greedy quantifier over one character class with a following
character from a disjoint class, greediness forces the quantifier to take
the maximal run, so no backtracking has to be modelled. -/

/-- Pass 1, `^(#{1,6}\s)` → `\$1`: reuse the heading match structure, but
re-emit each match with a leading backslash and its original whitespace
character. -/
def escHeadRender : List (List Char × Nat × Char) → List Char → List Char
  | [], t => t
  | (seg, l, w) :: ms, t =>
    seg ++ '\\' :: (List.replicate l '#' ++ w :: escHeadRender ms t)

/-- Pass 1 of escape mode: escape heading markers. -/
def escHead (s : List Char) : List Char :=
  let p := splitHeads true s
  escHeadRender p.1 p.2

/-- Pass 2, `(\*\*|__|\*|_)` → `\$1`: alternatives tried left to right at
each position. -/
def escEmph : List Char → List Char
  | [] => []
  | '*' :: '*' :: r => '\\' :: '*' :: '*' :: escEmph r
  | '_' :: '_' :: r => '\\' :: '_' :: '_' :: escEmph r
  | '*' :: r => '\\' :: '*' :: escEmph r
  | '_' :: r => '\\' :: '_' :: escEmph r
  | c :: r => c :: escEmph r

/-- Passes 3 and 7, `^(\s*X\s)` → `\$1` for a marker class `X` (list
bullets `[-+*]`, blockquote `>`): at a line start, a maximal `\s` run
followed by a marker and one `\s` character.  Greediness forces the run to
be maximal because the marker classes are disjoint from `\s`. -/
def escLinePrefGo (isMark : Char → Bool) : Nat → Bool → List Char → List Char
  | 0, _, s => s
  | _ + 1, _, [] => []
  | f + 1, b, c :: cs =>
    if b then
      let s := c :: cs
      let u := s.takeWhile isJsSpace
      match s.drop u.length with
      | m :: sp :: r2 =>
        if isMark m && isJsSpace sp then
          '\\' :: (u ++ m :: sp :: escLinePrefGo isMark f (isLineTerm sp) r2)
        else c :: escLinePrefGo isMark f (isLineTerm c) cs
      | _ => c :: escLinePrefGo isMark f (isLineTerm c) cs
    else c :: escLinePrefGo isMark f (isLineTerm c) cs

/-- Pass 3 of escape mode: escape list bullets. -/
def escBullet (s : List Char) : List Char :=
  escLinePrefGo (fun c => c = '-' || c = '+' || c = '*') (s.length + 1) true s

/-- Pass 7 of escape mode: escape blockquote markers. -/
def escQuote (s : List Char) : List Char :=
  escLinePrefGo (fun c => c = '>') (s.length + 1) true s

/-- Pass 4, `^(\s*\d+\.\s)` → `\$1`: numbered-list markers at a line
start. -/
def escNumGo : Nat → Bool → List Char → List Char
  | 0, _, s => s
  | _ + 1, _, [] => []
  | f + 1, b, c :: cs =>
    if b then
      let s := c :: cs
      let u := s.takeWhile isJsSpace
      let s1 := s.drop u.length
      let d := s1.takeWhile Char.isDigit
      if d.isEmpty then c :: escNumGo f (isLineTerm c) cs
      else
        match s1.drop d.length with
        | '.' :: sp :: r2 =>
          if isJsSpace sp then
            '\\' :: (u ++ d ++ '.' :: sp :: escNumGo f (isLineTerm sp) r2)
          else c :: escNumGo f (isLineTerm c) cs
        | _ => c :: escNumGo f (isLineTerm c) cs
    else c :: escNumGo f (isLineTerm c) cs

/-- Pass 4 of escape mode: escape numbered-list markers. -/
def escNum (s : List Char) : List Char :=
  escNumGo (s.length + 1) true s

/-- Pass 5, `(!?\[)` → `\$1`: link and image openers. -/
def escLink : List Char → List Char
  | [] => []
  | '!' :: '[' :: r => '\\' :: '!' :: '[' :: escLink r
  | '[' :: r => '\\' :: '[' :: escLink r
  | c :: r => c :: escLink r

/-- Pass 6, `` (`{1,3}) `` → `\$1`: each position consumes up to three
backticks of the current run. -/
def escTickGo : Nat → List Char → List Char
  | 0, s => s
  | _ + 1, [] => []
  | f + 1, c :: cs =>
    if c = '`' then
      let k := 1 + (cs.takeWhile (fun x => x = '`')).length
      let t := min k 3
      '\\' :: (List.replicate t '`' ++ escTickGo f ((c :: cs).drop t))
    else c :: escTickGo f cs

/-- Pass 6 of escape mode: escape backticks. -/
def escTick (s : List Char) : List Char :=
  escTickGo (s.length + 1) s

/-- Index of the last LineTerminator in a list, if any. -/
def lastTermIdx (vs : List Char) : Option Nat :=
  (vs.foldl (fun (acc : Nat × Option Nat) c =>
    (acc.1 + 1, if isLineTerm c then some acc.1 else acc.2)) (0, none)).2

/-- For pass 8: the trailing `\s*$` picks the longest prefix of the
whitespace run `vs` after which the multiline `$` matches: all of `vs`
when the string ends there, else up to the last LineTerminator in `vs`. -/
def hrPick (vs rest : List Char) : Option Nat :=
  if rest.isEmpty then some vs.length else lastTermIdx vs

/-- Does the list end in a LineTerminator? -/
def lastIsTerm (l : List Char) : Bool :=
  match l.getLast? with
  | some c => isLineTerm c
  | none => false

/-- Pass 8, `^(\s*[-*_]{3,}\s*)$` → `\$1`: horizontal rules.  The leading
`\s*` and the `[-*_]{3,}` are forced maximal (disjoint classes); the
trailing `\s*` backtracks to the longest prefix of its run ending at a
line boundary. -/
def escHrGo : Nat → Bool → List Char → List Char
  | 0, _, s => s
  | _ + 1, _, [] => []
  | f + 1, b, c :: cs =>
    if b then
      let s := c :: cs
      let a := s.takeWhile isJsSpace
      let s1 := s.drop a.length
      let bR := s1.takeWhile (fun x => x = '-' || x = '*' || x = '_')
      if 3 ≤ bR.length then
        let s2 := s1.drop bR.length
        let vs := s2.takeWhile isJsSpace
        let rest := s2.drop vs.length
        match hrPick vs rest with
        | some j =>
          let m := a ++ bR ++ vs.take j
          '\\' :: (m ++ escHrGo f (lastIsTerm m) (vs.drop j ++ rest))
        | none => c :: escHrGo f (isLineTerm c) cs
      else c :: escHrGo f (isLineTerm c) cs
    else c :: escHrGo f (isLineTerm c) cs

/-- Pass 8 of escape mode: escape horizontal rules. -/
def escHr (s : List Char) : List Char :=
  escHrGo (s.length + 1) true s

/-- Pass 9, `(\|)` → `\$1`: table pipes. -/
def escPipe : List Char → List Char
  | [] => []
  | '|' :: r => '\\' :: '|' :: escPipe r
  | c :: r => c :: escPipe r

/-- Pass 10, `^(\s*- \[ \])` → `\$1`: task-list checkboxes at a line
start. -/
def escTaskGo : Nat → Bool → List Char → List Char
  | 0, _, s => s
  | _ + 1, _, [] => []
  | f + 1, b, c :: cs =>
    if b then
      let s := c :: cs
      let u := s.takeWhile isJsSpace
      let s1 := s.drop u.length
      if pfx "- [ ]".toList s1 then
        '\\' :: (u ++ "- [ ]".toList ++ escTaskGo f false (s1.drop 5))
      else c :: escTaskGo f (isLineTerm c) cs
    else c :: escTaskGo f (isLineTerm c) cs

/-- Pass 10 of escape mode: escape task-list checkboxes. -/
def escTask (s : List Char) : List Char :=
  escTaskGo (s.length + 1) true s

/-- An ASCII letter (the `[a-z]` class under the `i` flag). -/
def isAsciiLetter (c : Char) : Bool :=
  ('a' ≤ c && c ≤ 'z') || ('A' ≤ c && c ≤ 'Z')

/-- For pass 11, group 1: from just after an opening backtick, find the
closing backtick with no LineTerminator in between (`.` does not match
line terminators).  Returns the span content and the rest. -/
def tickSpan : List Char → Option (List Char × List Char)
  | [] => none
  | c :: r =>
    if c = '`' then some ([], r)
    else if isLineTerm c then none
    else
      match tickSpan r with
      | some (i, rest) => some (c :: i, rest)
      | none => none

/-- For pass 11, group 2: from just after `<`, match `\/?[a-z][^>]*>`
case-insensitively.  Returns the tag body (between the angle brackets)
and the rest. -/
def tagMatch (r : List Char) : Option (List Char × List Char) :=
  let p : List Char × List Char :=
    match r with
    | '/' :: r' => (['/'], r')
    | _ => ([], r)
  match p.2 with
  | a :: r2 =>
    if isAsciiLetter a then
      let body := r2.takeWhile (fun c => c ≠ '>')
      match r2.drop body.length with
      | '>' :: rest => some (p.1 ++ a :: body, rest)
      | _ => none
    else none
  | [] => none

/-- Pass 11, ``(`.*?`)|(<\/?[a-z][^>]*>)`` with a callback: inline code
spans pass through unchanged; HTML tags outside code spans are wrapped in
backticks. -/
def escHtmlGo : Nat → List Char → List Char
  | 0, s => s
  | _ + 1, [] => []
  | f + 1, c :: cs =>
    if c = '`' then
      match tickSpan cs with
      | some (inner, rest) => '`' :: (inner ++ '`' :: escHtmlGo f rest)
      | none => c :: escHtmlGo f cs
    else if c = '<' then
      match tagMatch cs with
      | some (body, rest) => '`' :: '<' :: (body ++ '>' :: '`' :: escHtmlGo f rest)
      | none => c :: escHtmlGo f cs
    else c :: escHtmlGo f cs

/-- Pass 11 of escape mode: wrap HTML tags outside code spans in
backticks. -/
def escHtml (s : List Char) : List Char :=
  escHtmlGo (s.length + 1) s

/-- The full escape-mode rewriting (markdownTransformer.ts lines 114-141):
the eleven passes in source order. -/
def escapeAll (s : List Char) : List Char :=
  escHtml (escTask (escPipe (escHr (escQuote (escTick (escLink (escNum
    (escBullet (escEmph (escHead s))))))))))

/-! ## Line-break markers and the line policy tail -/

/-- The internal placeholder token for preserved line breaks
(markdownTransformer.ts line 152). -/
def lineBreakPlaceholder : List Char := "___LINE_BREAK_PLACEHOLDER___".toList

/-- The fixed opening of the first marker pattern,
`<p class="preserve-line-break"[^>]*>.*?<\/p>`. -/
def pTagOpen1 : List Char := "<p class=\"preserve-line-break\"".toList

/-- The fixed opening of the second marker pattern,
`<p data-preserve="true"[^>]*>.*?<\/p>`. -/
def pTagOpen2 : List Char := "<p data-preserve=\"true\"".toList

/-- For the marker patterns: from just after the `>` of the opening tag,
the non-greedy `.*?<\/p>` finds the nearest `</p>` with no LineTerminator
before it.  Returns the rest after the close tag. -/
def findCloseP : List Char → Option (List Char)
  | [] => none
  | c :: cs =>
    if pfx "</p>".toList (c :: cs) then some ((c :: cs).drop 4)
    else if isLineTerm c then none
    else findCloseP cs

/-- Match one marker paragraph, `OPENING[^>]*>.*?<\/p>`, at the head of
`s`; returns the rest after the match. -/
def matchPTag (opening s : List Char) : Option (List Char) :=
  if pfx opening s then
    let s1 := s.drop opening.length
    let a := s1.takeWhile (fun c => c ≠ '>')
    match s1.drop a.length with
    | '>' :: s2 => findCloseP s2
    | _ => none
  else none

/-- Fuelled scan replacing every marker paragraph by the placeholder
token (markdownTransformer.ts lines 153-154). -/
def pTagGo (opening : List Char) : Nat → List Char → List Char
  | 0, s => s
  | _ + 1, [] => []
  | f + 1, c :: cs =>
    match matchPTag opening (c :: cs) with
    | some rest => lineBreakPlaceholder ++ pTagGo opening f rest
    | none => c :: pTagGo opening f cs

/-- Replace every marker paragraph with the given opening by the
placeholder token. -/
def pTagReplace (opening s : List Char) : List Char :=
  pTagGo opening (s.length + 1) s

/-- The line-break / empty-line tail of `transformMarkdown`
(markdownTransformer.ts lines 146-194).  In the preserve branch the marker
paragraphs are turned into placeholder tokens, blank lines without a
placeholder are dropped when `removeEmptyLines` is set, and the
placeholders are finally resolved into literal newlines.  Note that the
empty-line filter assigns (not accumulates) the changed flag. -/
def mdTail (stripLineBreaks removeEmptyLines : Bool) (md : List Char) (ap : Bool) :
    List Char × Bool :=
  if stripLineBreaks then
    if removeEmptyLines then
      let mdN := replaceSeq "\r\n".toList ['\n'] md
      let kept := (splitOnNl mdN).filter (fun l => jsTrim l != [])
      let joined := joinNl kept
      (joined, joined != mdN)
    else (md, ap)
  else
    let md1 := pTagReplace pTagOpen1 md
    let md2 := pTagReplace pTagOpen2 md1
    let p :=
      if removeEmptyLines then
        let mdN := replaceSeq "\r\n".toList ['\n'] md2
        let kept := (splitOnNl mdN).filter
          (fun l => jsTrim l != [] || containsSeq lineBreakPlaceholder l)
        let joined := joinNl kept
        (joined, joined != mdN)
      else (md2, ap)
    (replaceSeq lineBreakPlaceholder ['\n'] p.1, p.2)

/-! ## The markdown rewriter -/

/-- The settings record consumed by `transformMarkdown`
(markdownTransformer.ts lines 13-20).  The regex replacement pairs are
kept as raw pattern/replacement strings; their interpretation by the
host's regex engine is a parameter of the transformation. -/
structure MdSettings where
  markdownRegexReplacements : List (List Char × List Char)
  contextualCascade : Bool
  maxHeadingLevel : Nat
  cascadeHeadingLevels : Bool
  stripLineBreaks : Bool
  removeEmptyLines : Bool

/-- A regex evaluator supplied by the environment: given a
pattern/replacement pair and a subject string it returns the replaced
string, or an error when the pattern fails to compile or the substitution
throws. -/
def RegexEval : Type :=
  (List Char × List Char) → List Char → Except Unit (List Char)

/-- The regex-replacement loop (markdownTransformer.ts lines 27-40): each
pair is applied in order inside a try/catch; a failing pair leaves the
string untouched and the loop continues; the changed flag is set when a
pair altered the string. -/
def applyReps (ev : RegexEval) :
    List (List Char × List Char) → List Char → Bool → List Char × Bool
  | [], s, ap => (s, ap)
  | r :: rs, s, ap =>
    match ev r s with
    | .ok s' => applyReps ev rs s' (ap || (s' != s))
    | .error _ => applyReps ev rs s ap

/-- Stages 1-3 of `transformMarkdown`: regex replacements, then either the
heading adjustment (contextual cascade, or max-heading-level handling) or
the escape-mode rewriting.  Returns the text and the changed flag as they
stand when the line-policy tail begins. -/
def mdStage2 (ev : RegexEval) (markdown : List Char) (settings : MdSettings)
    (contextLevel : Nat) (escapeMarkdown : Bool) : List Char × Bool :=
  let p := applyReps ev settings.markdownRegexReplacements markdown false
  if escapeMarkdown then
    let e := escapeAll p.1
    (e, p.1 != e)
  else
    if settings.contextualCascade && decide (0 < contextLevel) then
      let q := headingReplace (ctxStep contextLevel) ⟨-1, false, p.2⟩ p.1
      (q.1, q.2.ap)
    else if decide (1 < settings.maxHeadingLevel) then
      let q := headingReplace
        (maxStep settings.maxHeadingLevel settings.cascadeHeadingLevels)
        ⟨-1, false, p.2⟩ p.1
      (q.1, q.2.ap)
    else p

/-- The markdown rewriter `transformMarkdown` (markdownTransformer.ts):
regex replacements, heading adjustment or escaping, then the line-break /
empty-line policy.  Returns the transformed text and the
`appliedTransformations` flag. -/
def transformMarkdown (ev : RegexEval) (markdown : List Char) (settings : MdSettings)
    (contextLevel : Nat) (escapeMarkdown : Bool) : List Char × Bool :=
  let p := mdStage2 ev markdown settings contextLevel escapeMarkdown
  mdTail settings.stripLineBreaks settings.removeEmptyLines p.1 p.2

/-- A vacuous regex evaluator for configurations with no replacement
pairs. -/
def noEval : RegexEval := fun _ _ => .error ()

/-- A settings record with every transformation disabled. -/
def baseSettings : MdSettings :=
  { markdownRegexReplacements := []
    contextualCascade := false
    maxHeadingLevel := 1
    cascadeHeadingLevels := false
    stripLineBreaks := false
    removeEmptyLines := false }

/-! ## Specification-level heading maps

These two definitions follow the wording of the specification (§4.3 step
2) rather than the source, and serve as the comparison targets for the
refinement claims about the two cascade modes. -/

/-- The contextual-cascade mapping as the specification words it: the
first heading whose level is at most `contextLevel` becomes
`min(contextLevel + 1, 6)` and fixes `delta = newLevel - oldLevel`; every
subsequent heading becomes `min(oldLevel + delta, 6)`; headings before
cascading starts are unchanged. -/
def ctxCascadeSpec (contextLevel : Nat) : List Nat → List Nat
  | [] => []
  | l :: ls =>
    if l ≤ contextLevel then
      let nl := min (contextLevel + 1) 6
      nl :: ls.map (fun x => min (x + (nl - l)) 6)
    else l :: ctxCascadeSpec contextLevel ls

/-- The standalone cascade mapping as the specification words it: the
first heading with level below `maxHeadingLevel` is promoted to
`maxHeadingLevel`, establishing `delta`; all following headings shift by
that `delta`, clamped to 6; earlier headings are unchanged. -/
def maxCascadeSpec (maxHeadingLevel : Nat) : List Nat → List Nat
  | [] => []
  | l :: ls =>
    if l < maxHeadingLevel then
      maxHeadingLevel :: ls.map (fun x => min (x + (maxHeadingLevel - l)) 6)
    else l :: maxCascadeSpec maxHeadingLevel ls

/-! ## The single-spacing step (modelled from the spec)

The repository's settings, settings UI, change proposal and openspec
requirement all describe a `convertToSingleSpaced` transformation inside
`transformMarkdown`, but the shipped `markdownTransformer.ts` does not
contain its implementation.  The step is therefore modelled from the
specification and grafted into the pipeline at the documented position
(before the empty-line removal, skipped when `removeEmptyLines` is on). -/

/-- Modelled from the spec: collapse every maximal run of two or more
consecutive blank lines into exactly one blank line; a run of exactly one
blank line, and every non-blank line, is left untouched.  (The
implementation of `convertToSingleSpaced` is absent from the shipped
`markdownTransformer.ts`; this follows §4.3 step 4c of the spec.) -/
def collapseBlankGo : Nat → List (List Char) → List (List Char)
  | 0, ls => ls
  | _ + 1, [] => []
  | f + 1, l :: ls =>
    if jsTrim l = [] then l :: collapseBlankGo f (ls.dropWhile (fun x => jsTrim x = []))
    else l :: collapseBlankGo f ls

/-- Modelled from the spec: the single-spacing transformation on a text,
working line-wise. -/
def collapseBlank (s : List Char) : List Char :=
  joinNl (collapseBlankGo (s.length + 1) (splitOnNl s))

/-- Modelled from the spec: the line-policy tail with the single-spacing
step inserted before the empty-line removal and skipped when
`removeEmptyLines` is enabled, per the repository's
`markdown-transformations` requirement and task list. -/
def mdTailSS (convertToSingleSpaced stripLineBreaks removeEmptyLines : Bool)
    (md : List Char) (ap : Bool) : List Char × Bool :=
  if stripLineBreaks then
    if removeEmptyLines then
      let mdN := replaceSeq "\r\n".toList ['\n'] md
      let kept := (splitOnNl mdN).filter (fun l => jsTrim l != [])
      let joined := joinNl kept
      (joined, joined != mdN)
    else if convertToSingleSpaced then
      let c := collapseBlank md
      (c, ap || (c != md))
    else (md, ap)
  else
    let md1 := pTagReplace pTagOpen1 md
    let md2 := pTagReplace pTagOpen2 md1
    let p :=
      if removeEmptyLines then
        let mdN := replaceSeq "\r\n".toList ['\n'] md2
        let kept := (splitOnNl mdN).filter
          (fun l => jsTrim l != [] || containsSeq lineBreakPlaceholder l)
        let joined := joinNl kept
        (joined, joined != mdN)
      else if convertToSingleSpaced then
        let c := collapseBlank md2
        (c, ap || (c != md2))
      else (md2, ap)
    (replaceSeq lineBreakPlaceholder ['\n'] p.1, p.2)

/-- Modelled from the spec: `transformMarkdown` with the documented
`convertToSingleSpaced` step present. -/
def transformMarkdownSS (ev : RegexEval) (markdown : List Char) (settings : MdSettings)
    (convertToSingleSpaced : Bool) (contextLevel : Nat) (escapeMarkdown : Bool) :
    List Char × Bool :=
  let p := mdStage2 ev markdown settings contextLevel escapeMarkdown
  mdTailSS convertToSingleSpaced settings.stripLineBreaks settings.removeEmptyLines p.1 p.2

/-! ## The markup normalizer (modelled from the spec)

The shipped `htmlTransformer.ts` returns a bare string, but its caller in
`main.ts` consumes `result.html` and `result.appliedTransformations`, and
the specification's contract for the Markup Normalizer is
`normalize(rawHtml, config) -> (html, changed)`.  The pair-returning
normalizer is therefore modelled from the specification (§4.1).  Parsing
and serialization are environment services (the browser's DOM), passed in
as parameters; the tree rewriting steps operate on an explicit markup
tree. -/

/-- A parsed markup node: a text node, an explicit line break, or an
element with a tag name, a preserve marker and children. -/
inductive HNode where
  | text : List Char → HNode
  | br : HNode
  | elem : List Char → Bool → List HNode → HNode

/-- Tags that are meaningful even when empty (§4.1 step 4a). -/
def voidTag (t : List Char) : Bool :=
  t = "img".toList || t = "hr".toList || t = "br".toList ||
  t = "input".toList || t = "iframe".toList

/-- Total node count of a forest, the measure for the pruning fixpoint. -/
def sizeF : List HNode → Nat
  | [] => 0
  | .text _ :: ns => 1 + sizeF ns
  | .br :: ns => 1 + sizeF ns
  | .elem _ _ ch :: ns => 1 + sizeF ch + sizeF ns

/-- Does the forest contain an explicit line-break node? -/
def hasBrF : List HNode → Bool
  | [] => false
  | .text _ :: ns => hasBrF ns
  | .br :: ns => true || hasBrF ns
  | .elem _ _ ch :: ns => hasBrF ch || hasBrF ns

/-- Modelled from the spec: step 3 with line breaks stripped — delete
every explicit break node.  Returns the rewritten forest and whether any
node was removed. -/
def removeBrs : List HNode → List HNode × Bool
  | [] => ([], false)
  | .br :: ns => ((removeBrs ns).1, true)
  | .text s :: ns =>
    let r := removeBrs ns
    (.text s :: r.1, r.2)
  | .elem t p ch :: ns =>
    let rc := removeBrs ch
    let r := removeBrs ns
    (.elem t p rc.1 :: r.1, rc.2 || r.2)

/-- Modelled from the spec: the Line-Break Marker — a preserve-tagged
paragraph with a zero-width-space payload. -/
def lineBreakMarker : HNode :=
  .elem "p".toList true [.text [Char.ofNat 0x200b]]

/-- Modelled from the spec: step 3 with line breaks preserved — replace
every explicit break node by a Line-Break Marker.  Returns the rewritten
forest and whether any node was replaced. -/
def replaceBrs : List HNode → List HNode × Bool
  | [] => ([], false)
  | .br :: ns =>
    let r := replaceBrs ns
    (lineBreakMarker :: r.1, true)
  | .text s :: ns =>
    let r := replaceBrs ns
    (.text s :: r.1, r.2)
  | .elem t p ch :: ns =>
    let rc := replaceBrs ch
    let r := replaceBrs ns
    (.elem t p rc.1 :: r.1, rc.2 || r.2)

/-- Modelled from the spec: is a node empty — not a void tag, not
preserve-tagged, no non-whitespace text content and no non-empty
descendant (§4.1 step 4)?  A whitespace-only text node does not make its
parent non-empty. -/
def nodeEmpty : HNode → Bool
  | .text s => s.all isJsSpace
  | .br => false
  | .elem t p ch => !voidTag t && !p && goEmpty ch
where
  /-- Are all nodes of the forest empty? -/
  goEmpty : List HNode → Bool
    | [] => true
    | n :: ns => nodeEmpty n && goEmpty ns

/-- Modelled from the spec: the empty-element pruning (§4.1 step 4) as a
bottom-up traversal removing every empty element; because emptiness is
hereditary this single traversal already reaches the fixpoint that the
spec's re-scan loop computes.  Returns the pruned forest and whether any
element was removed. -/
def pruneF : List HNode → List HNode × Bool
  | [] => ([], false)
  | .text s :: ns =>
    let r := pruneF ns
    (.text s :: r.1, r.2)
  | .br :: ns =>
    let r := pruneF ns
    (.br :: r.1, r.2)
  | .elem t p ch :: ns =>
    let r := pruneF ns
    if nodeEmpty (.elem t p ch) then (r.1, true)
    else
      let rc := pruneF ch
      (.elem t p rc.1 :: r.1, r.2 || rc.2)

/-- The settings record consumed by the markup normalizer. -/
structure HtmlSettings where
  htmlRegexReplacements : List (List Char × List Char)
  stripLineBreaks : Bool
  removeEmptyElements : Bool

/-- Modelled from the spec: step 1 of the normalizer — the pattern
substitution over the raw markup string, with its change indicator. -/
def htmlSubst (ev : RegexEval) (S : HtmlSettings) (html : List Char) :
    List Char × Bool :=
  applyReps ev S.htmlRegexReplacements html false

/-- Modelled from the spec: step 3 of the normalizer — the line-break
policy (delete breaks, or replace them by Line-Break Markers). -/
def htmlBreaks (S : HtmlSettings) (ns : List HNode) : List HNode × Bool :=
  if S.stripLineBreaks then removeBrs ns else replaceBrs ns

/-- Modelled from the spec: the Markup Normalizer
`normalize(rawHtml, config) -> (html, changed)` (§4.1): pattern
substitution on the raw string, lenient parse (an environment service),
line-break policy, optional empty-element pruning, serialization.  The
changed flag is the disjunction of the per-step change indicators. -/
def transformHTML (ev : RegexEval) (parse : List Char → List HNode)
    (serialize : List HNode → List Char) (html : List Char)
    (S : HtmlSettings) : List Char × Bool :=
  let p := htmlSubst ev S html
  let t0 := parse p.1
  let q1 := htmlBreaks S t0
  let q2 := if S.removeEmptyElements then pruneF q1.1 else (q1.1, false)
  (serialize q2.1, p.2 || q1.2 || q2.2)

/-! ## Vocabulary for reasoning about the heading scan

`segScan` states that a stretch of text contains no heading match,
`endStat` tracks the line-start status across it, `Sound` packages the
invariants that `splitHeads` guarantees for the structure it returns, and
`capAssemble`/`capRender` describe the output of one simple-cap pass. -/

/-- Scanning `seg` (with line-start status `b`, and `follow` the text
that comes after `seg`) hits no heading match inside `seg`. -/
def segScan : Bool → List Char → List Char → Bool
  | _, [], _ => true
  | b, c :: cs, fw =>
    if b && (matchHead (c :: (cs ++ fw))).isSome then false
    else segScan (isLineTerm c) cs fw

/-- The line-start status after scanning `seg` starting from status
`b`: updated character by character, it ends as the terminator status of
the last character (or stays `b` when `seg` is empty). -/
def endStat (b : Bool) : List Char → Bool
  | [] => b
  | c :: cs => endStat (isLineTerm c) cs

/-- The invariants `splitHeads` guarantees for the structure it returns
when scanning from status `b`: every segment is match-free given what
follows it, every match sits at a line start, carries a level in [1,6]
and a whitespace character, and the trailing segment is match-free. -/
def Sound (b : Bool) : List (List Char × Nat × Char) → List Char → Prop
  | [], t => segScan b t [] = true
  | (seg, l, w) :: ms, t =>
    segScan b seg (List.replicate l '#' ++ w :: assembleHeads ms t) = true ∧
    endStat b seg = true ∧ 1 ≤ l ∧ l ≤ 6 ∧ isJsSpace w = true ∧
    Sound (isLineTerm w) ms t

/-- Reassemble a match structure with every level capped at the floor
`m` and the matched whitespace re-rendered as a space: the text produced
by one simple-cap pass over that structure. -/
def capAssemble (m : Nat) : List (List Char × Nat × Char) → List Char → List Char
  | [], t => t
  | (seg, l, _) :: ms, t =>
    seg ++ List.replicate (max l m) '#' ++ ' ' :: capAssemble m ms t

/-- Render a scan result with all levels capped at the floor `m`. -/
def capRender (m : Nat) (r : List (List Char × Nat × Char) × List Char) : List Char :=
  renderHeads r.1 ((headLevels r.1).map (fun l => max l m)) r.2

/-! ## Blank-line vocabulary -/

/-- The lines of a text; an empty text has no lines. -/
def linesOf (s : List Char) : List (List Char) :=
  if s = [] then [] else splitOnNl s

/-- A text is blank-line free when none of its lines is empty or
whitespace-only. -/
def blankFree (s : List Char) : Prop :=
  ∀ l ∈ linesOf s, jsTrim l ≠ []

instance (s : List Char) : Decidable (blankFree s) :=
  inferInstanceAs (Decidable (∀ l ∈ linesOf s, jsTrim l ≠ []))

/-! # Theorems

First a toolkit of lemmas about the list-level vocabulary, then one
theorem per claim (with its witness or counterexample where required). -/

theorem pfx_append {u v w : List Char} (h : pfx u v = true) : pfx u (v ++ w) = true := by
  induction u generalizing v with
  | nil => simp [pfx]
  | cons a as ih =>
    cases v with
    | nil => simp [pfx] at h
    | cons b bs =>
      simp only [pfx, Bool.and_eq_true, decide_eq_true_eq] at h ⊢
      exact ⟨h.1, ih h.2⟩

theorem contains_of_pfx {t s : List Char} (ht : t ≠ []) (h : pfx t s = true) :
    containsSeq t s = true := by
  cases s with
  | nil =>
    cases t with
    | nil => simp at ht
    | cons a as => simp [pfx] at h
  | cons c cs => simp [containsSeq, h]

theorem contains_cons {t : List Char} {c : Char} {cs : List Char}
    (h : containsSeq t cs = true) : containsSeq t (c :: cs) = true := by
  simp [containsSeq, h]

theorem contains_append_right {t x : List Char} (a : List Char)
    (h : containsSeq t x = true) : containsSeq t (a ++ x) = true := by
  induction a with
  | nil => exact h
  | cons c cs ih => exact contains_cons ih

theorem contains_nil_pat (s : List Char) : containsSeq [] s = true := by
  cases s <;> simp [containsSeq, pfx, List.isEmpty]

theorem contains_append_left {t x : List Char} (b : List Char)
    (h : containsSeq t x = true) : containsSeq t (x ++ b) = true := by
  induction x with
  | nil =>
    cases t with
    | nil => exact contains_nil_pat b
    | cons a as => simp [containsSeq, List.isEmpty] at h
  | cons c cs ih =>
    simp only [containsSeq, Bool.or_eq_true] at h
    rcases h with h | h
    · simp only [List.cons_append, containsSeq, Bool.or_eq_true]
      exact Or.inl (pfx_append h)
    · exact contains_cons (ih h)

theorem contains_of_part {t s a l b : List Char} (hs : s = a ++ l ++ b)
    (h : containsSeq t l = true) : containsSeq t s = true := by
  subst hs
  rw [List.append_assoc]
  exact contains_append_right a (contains_append_left b h)

theorem contains_of_drop {t : List Char} (k : Nat) :
    ∀ s : List Char, containsSeq t (s.drop k) = true → containsSeq t s = true := by
  induction k with
  | zero => intro s h; simpa using h
  | succ k ih =>
    intro s h
    cases s with
    | nil => simpa using h
    | cons c cs => exact contains_cons (ih cs h)

theorem pfx_of_append_sep {t x y : List Char} {sep : Char} (hsep : sep ∉ t)
    (h : pfx t (x ++ sep :: y) = true) : pfx t x = true := by
  induction x generalizing t with
  | nil =>
    cases t with
    | nil => simp [pfx]
    | cons a as =>
      simp only [List.nil_append, pfx, Bool.and_eq_true, decide_eq_true_eq] at h
      exact absurd (h.1 ▸ List.mem_cons_self a as) hsep
  | cons c cs ih =>
    cases t with
    | nil => simp [pfx]
    | cons a as =>
      simp only [List.cons_append, pfx, Bool.and_eq_true, decide_eq_true_eq] at h ⊢
      refine ⟨h.1, ih (fun hm => hsep (List.mem_cons_of_mem a hm)) h.2⟩

theorem contains_append_sep {t x y : List Char} {sep : Char} (ht : t ≠ [])
    (hsep : sep ∉ t) (h : containsSeq t (x ++ sep :: y) = true) :
    containsSeq t x = true ∨ containsSeq t y = true := by
  induction x with
  | nil =>
    simp only [List.nil_append, containsSeq, Bool.or_eq_true] at h
    rcases h with h | h
    · cases t with
      | nil => simp at ht
      | cons a as =>
        simp only [pfx, Bool.and_eq_true, decide_eq_true_eq] at h
        exact absurd (h.1 ▸ List.mem_cons_self a as) hsep
    · exact Or.inr h
  | cons c cs ih =>
    simp only [List.cons_append, containsSeq, Bool.or_eq_true] at h
    rcases h with h | h
    · have := pfx_of_append_sep (x := c :: cs) hsep (by simpa using h)
      exact Or.inl (contains_of_pfx ht this)
    · rcases ih h with h' | h'
      · exact Or.inl (contains_cons h')
      · exact Or.inr h'

theorem joinNl_contains_line {t : List Char} (ht : t ≠ []) (hnl : '\n' ∉ t) :
    ∀ ls : List (List Char), containsSeq t (joinNl ls) = true →
      ∃ l ∈ ls, containsSeq t l = true := by
  intro ls
  induction ls with
  | nil =>
    intro h
    cases t with
    | nil => simp at ht
    | cons a as => simp [joinNl, containsSeq, List.isEmpty] at h
  | cons l ls ih =>
    intro h
    cases ls with
    | nil =>
      exact ⟨l, List.mem_singleton_self l, by simpa [joinNl] using h⟩
    | cons l' ls' =>
      have hj : joinNl (l :: l' :: ls') = l ++ '\n' :: joinNl (l' :: ls') := rfl
      rw [hj] at h
      rcases contains_append_sep ht hnl h with h' | h'
      · exact ⟨l, List.mem_cons_self _ _, h'⟩
      · rcases ih h' with ⟨m, hm, hc⟩
        exact ⟨m, List.mem_cons_of_mem _ hm, hc⟩

theorem splitOnNl_ne_nil (s : List Char) : splitOnNl s ≠ [] := by
  cases s with
  | nil => simp [splitOnNl]
  | cons c cs =>
    simp only [splitOnNl]
    split
    · simp
    · split <;> simp

theorem splitOnNl_mem_no_nl (s : List Char) : ∀ l ∈ splitOnNl s, '\n' ∉ l := by
  induction s with
  | nil => intro l hl; simp [splitOnNl] at hl; simp [hl]
  | cons c cs ih =>
    intro l hl
    by_cases hc : c = '\n'
    · simp only [splitOnNl, if_pos hc] at hl
      rcases List.mem_cons.mp hl with hl | hl
      · simp [hl]
      · exact ih l hl
    · simp only [splitOnNl, if_neg hc] at hl
      rcases hr : splitOnNl cs with _ | ⟨l0, ls0⟩
      · exact absurd hr (splitOnNl_ne_nil cs)
      · rw [hr] at hl
        rcases List.mem_cons.mp hl with hl | hl
        · subst hl
          intro hm
          rcases List.mem_cons.mp hm with h | h
          · exact hc h.symm
          · exact ih l0 (hr ▸ List.mem_cons_self l0 ls0) h
        · exact ih l (hr ▸ List.mem_cons_of_mem l0 hl)

theorem splitOnNl_append_cons {l : List Char} (hnl : '\n' ∉ l) (r : List Char) :
    splitOnNl (l ++ '\n' :: r) = l :: splitOnNl r := by
  induction l with
  | nil => simp [splitOnNl]
  | cons c cs ih =>
    have hc : c ≠ '\n' := fun h => hnl (h ▸ List.mem_cons_self c cs)
    have ihh := ih (fun hm => hnl (List.mem_cons_of_mem c hm))
    simp only [List.cons_append, splitOnNl, if_neg hc, List.append_eq, ihh]

theorem splitOnNl_no_nl_id {l : List Char} (hnl : '\n' ∉ l) : splitOnNl l = [l] := by
  induction l with
  | nil => simp [splitOnNl]
  | cons c cs ih =>
    have hc : c ≠ '\n' := fun h => hnl (h ▸ List.mem_cons_self c cs)
    have ihh := ih (fun hm => hnl (List.mem_cons_of_mem c hm))
    simp only [splitOnNl, if_neg hc, ihh]

theorem splitOnNl_joinNl {ls : List (List Char)} (hne : ls ≠ [])
    (hnl : ∀ l ∈ ls, '\n' ∉ l) : splitOnNl (joinNl ls) = ls := by
  induction ls with
  | nil => simp at hne
  | cons l ls ih =>
    cases ls with
    | nil =>
      simpa [joinNl] using splitOnNl_no_nl_id (hnl l (List.mem_cons_self l []))
    | cons l' ls' =>
      have hj : joinNl (l :: l' :: ls') = l ++ '\n' :: joinNl (l' :: ls') := rfl
      rw [hj, splitOnNl_append_cons (hnl l (List.mem_cons_self _ _))]
      rw [ih (by simp) (fun m hm => hnl m (List.mem_cons_of_mem l hm))]

theorem joinNl_ne_nil {l : List Char} {ls : List (List Char)} (hl : l ≠ []) :
    joinNl (l :: ls) ≠ [] := by
  cases ls with
  | nil => simpa [joinNl] using hl
  | cons l' ls' =>
    have hj : joinNl (l :: l' :: ls') = l ++ '\n' :: joinNl (l' :: ls') := rfl
    rw [hj]
    simp

/-! Lemmas about literal replacement: a newline-free pattern cannot
survive, nor be newly created by, its own replacement with a newline, and
replacement by a newline cannot create occurrences of any newline-free
string that was absent before. -/

theorem replGo_pfx_transfer {t : List Char} {c0 : Char} :
    ∀ (f : Nat) (u s : List Char), c0 ∉ u →
      pfx u (replaceSeqGo t [c0] f s) = true → pfx u s = true := by
  intro f
  induction f with
  | zero => intro u s _ h; simpa [replaceSeqGo] using h
  | succ f ih =>
    intro u s hu h
    cases s with
    | nil => simpa [replaceSeqGo] using h
    | cons c cs =>
      by_cases hp : pfx t (c :: cs) = true
      · rw [replaceSeqGo, if_pos hp] at h
        cases u with
        | nil => simp [pfx]
        | cons a as =>
          simp only [List.singleton_append, pfx, Bool.and_eq_true,
            decide_eq_true_eq] at h
          exact absurd (h.1 ▸ List.mem_cons_self a as) hu
      · rw [replaceSeqGo, if_neg hp] at h
        cases u with
        | nil => simp [pfx]
        | cons a as =>
          simp only [pfx, Bool.and_eq_true, decide_eq_true_eq] at h ⊢
          exact ⟨h.1, ih as cs (fun hm => hu (List.mem_cons_of_mem a hm)) h.2⟩

theorem replGo_no_self {t : List Char} {c0 : Char} (ht : t ≠ []) (hc : c0 ∉ t) :
    ∀ (f : Nat) (s : List Char), s.length < f →
      containsSeq t (replaceSeqGo t [c0] f s) = false := by
  intro f
  induction f with
  | zero => intro s h; omega
  | succ f ih =>
    intro s hlen
    cases s with
    | nil =>
      cases t with
      | nil => simp at ht
      | cons a as => simp [replaceSeqGo, containsSeq, List.isEmpty]
    | cons c cs =>
      by_cases hp : pfx t (c :: cs) = true
      · rw [replaceSeqGo, if_pos hp]
        cases t with
        | nil => simp at ht
        | cons a as =>
          have hlen' : ((c :: cs).drop (a :: as).length).length < f := by
            simp only [List.length_drop, List.length_cons] at *
            omega
          have hrec := ih _ hlen'
          have hac0 : a ≠ c0 := fun h => hc (h ▸ List.mem_cons_self a as)
          simp only [List.append_eq, List.nil_append, List.singleton_append,
            List.cons_append, containsSeq]
          rw [Bool.or_eq_false_iff]
          refine ⟨?_, hrec⟩
          simp only [pfx, Bool.and_eq_false_iff, decide_eq_false_iff_not]
          exact Or.inl hac0
      · rw [replaceSeqGo, if_neg hp]
        have hlen' : cs.length < f := by
          simp only [List.length_cons] at hlen; omega
        have hrec := ih cs hlen'
        simp only [containsSeq]
        rw [Bool.or_eq_false_iff]
        refine ⟨?_, hrec⟩
        cases t with
        | nil => simp at ht
        | cons a as =>
          by_cases hax : a = c
          · subst hax
            by_cases hfx : pfx as (replaceSeqGo (a :: as) [c0] f cs) = true
            · exfalso
              have hcs : pfx as cs = true :=
                replGo_pfx_transfer f as cs
                  (fun hm => hc (List.mem_cons_of_mem a hm)) hfx
              exact hp (by simp [pfx, hcs])
            · simp only [pfx, Bool.and_eq_false_iff]
              exact Or.inr (by simpa using hfx)
          · simp [pfx, hax]

theorem replaceSeq_no_self {t : List Char} {c0 : Char} (ht : t ≠ []) (hc : c0 ∉ t)
    (s : List Char) : containsSeq t (replaceSeq t [c0] s) = false :=
  replGo_no_self ht hc (s.length + 1) s (Nat.lt_succ_self _)

theorem replGo_contains_transfer {t : List Char} {c0 : Char} :
    ∀ (f : Nat) (u s : List Char), c0 ∉ u → u ≠ [] →
      containsSeq u (replaceSeqGo t [c0] f s) = true → containsSeq u s = true := by
  intro f
  induction f with
  | zero => intro u s _ _ h; simpa [replaceSeqGo] using h
  | succ f ih =>
    intro u s hu hune h
    cases s with
    | nil => simpa [replaceSeqGo] using h
    | cons c cs =>
      by_cases hp : pfx t (c :: cs) = true
      · rw [replaceSeqGo, if_pos hp] at h
        simp only [List.singleton_append, containsSeq, Bool.or_eq_true] at h
        rcases h with h | h
        · cases u with
          | nil => simp at hune
          | cons a as =>
            simp only [pfx, Bool.and_eq_true, decide_eq_true_eq] at h
            exact absurd (h.1 ▸ List.mem_cons_self a as) hu
        · exact contains_of_drop t.length (c :: cs) (ih u _ hu hune h)
      · rw [replaceSeqGo, if_neg hp] at h
        simp only [containsSeq, Bool.or_eq_true] at h ⊢
        rcases h with h | h
        · cases u with
          | nil => simp at hune
          | cons a as =>
            simp only [pfx, Bool.and_eq_true, decide_eq_true_eq] at h ⊢
            exact Or.inl ⟨h.1,
              replGo_pfx_transfer f as cs
                (fun hm => hu (List.mem_cons_of_mem a hm)) h.2⟩
        · exact Or.inr (ih u cs hu hune h)

theorem replaceSeq_contains_transfer {t u : List Char} {c0 : Char} (hu : c0 ∉ u)
    (hune : u ≠ []) (s : List Char)
    (h : containsSeq u (replaceSeq t [c0] s) = true) : containsSeq u s = true :=
  replGo_contains_transfer (s.length + 1) u s hu hune h

theorem replGo_id {t r : List Char} :
    ∀ (f : Nat) (s : List Char), containsSeq t s = false → replaceSeqGo t r f s = s := by
  intro f
  induction f with
  | zero => intro s _; rfl
  | succ f ih =>
    intro s h
    cases s with
    | nil => rfl
    | cons c cs =>
      simp only [containsSeq, Bool.or_eq_false_iff] at h
      rw [replaceSeqGo, if_neg (by simp [h.1]), ih cs h.2]

theorem replaceSeq_id {t r s : List Char} (h : containsSeq t s = false) :
    replaceSeq t r s = s :=
  replGo_id (s.length + 1) s h

theorem splitOnNl_head_part {s l0 : List Char} {ls : List (List Char)}
    (h : splitOnNl s = l0 :: ls) : ∃ b, s = l0 ++ b := by
  induction s generalizing l0 ls with
  | nil =>
    simp only [splitOnNl, List.cons.injEq] at h
    exact ⟨[], by simp [h.1.symm]⟩
  | cons c cs ih =>
    by_cases hc : c = '\n'
    · simp only [splitOnNl, if_pos hc, List.cons.injEq] at h
      exact ⟨c :: cs, by simp [h.1.symm]⟩
    · rcases hr : splitOnNl cs with _ | ⟨m, ms⟩
      · exact absurd hr (splitOnNl_ne_nil cs)
      · simp only [splitOnNl, if_neg hc, hr, List.cons.injEq] at h
        rcases ih hr with ⟨b, hb⟩
        exact ⟨b, by rw [← h.1]; simp [hb]⟩

theorem splitOnNl_part {s l : List Char} (h : l ∈ splitOnNl s) :
    ∃ a b, s = a ++ l ++ b := by
  induction s generalizing l with
  | nil =>
    simp only [splitOnNl, List.mem_singleton] at h
    exact ⟨[], [], by simp [h]⟩
  | cons c cs ih =>
    by_cases hc : c = '\n'
    · simp only [splitOnNl, if_pos hc] at h
      rcases List.mem_cons.mp h with h | h
      · exact ⟨[], c :: cs, by simp [h]⟩
      · rcases ih h with ⟨a, b, hab⟩
        exact ⟨c :: a, b, by simp [hab]⟩
    · rcases hr : splitOnNl cs with _ | ⟨m, ms⟩
      · exact absurd hr (splitOnNl_ne_nil cs)
      · simp only [splitOnNl, if_neg hc, hr] at h
        rcases List.mem_cons.mp h with h | h
        · rcases splitOnNl_head_part hr with ⟨b, hb⟩
          exact ⟨[], b, by simp [h, hb]⟩
        · have hm : l ∈ splitOnNl cs := hr ▸ List.mem_cons_of_mem m h
          rcases ih hm with ⟨a, b, hab⟩
          exact ⟨c :: a, b, by simp [hab]⟩

theorem jsTrim_nil : jsTrim [] = [] := rfl

theorem blankFree_filter_join {ls : List (List Char)} (hnl : ∀ l ∈ ls, '\n' ∉ l)
    {p : List Char → Bool} (hp : ∀ l, p l = true → jsTrim l ≠ []) :
    blankFree (joinNl (ls.filter p)) := by
  rcases hk : ls.filter p with _ | ⟨l, ks⟩
  · intro m hm
    simp [joinNl, linesOf] at hm
  · have hlmem : l ∈ ls.filter p := hk ▸ List.mem_cons_self l ks
    have hpl : p l = true := List.of_mem_filter hlmem
    have hlt : jsTrim l ≠ [] := hp l hpl
    have hlne : l ≠ [] := fun h => hlt (h ▸ jsTrim_nil)
    have hne : joinNl (l :: ks) ≠ [] := joinNl_ne_nil hlne
    intro m hm
    rw [linesOf, if_neg hne] at hm
    rw [splitOnNl_joinNl (by simp)
      (fun x hx => hnl x (List.mem_of_mem_filter (hk ▸ hx)))] at hm
    have : p m = true := List.of_mem_filter (hk ▸ hm)
    exact hp m this

/-- Claim C1: the specification requires the heading scan's changed flag
to accumulate by logical OR across the scan and never be reset by a later
unchanged heading.  The code assigns the flag afresh on every heading
(markdownTransformer.ts lines 70 and 101), so a trailing unchanged
heading resets it: with contextual cascade at context level 2 the heading
`# A` is changed to `### A`, yet the returned flag is `false` because the
final heading `###### B` needed no change.  This theorem evaluates the
embedded code at the failing input, witnessing the divergence the
repository's own change record (fix-heading-cascade-flag) identifies as a
bug. -/
theorem c1_flag_reset_at_failing_input :
    (transformMarkdown noEval "# A\n###### B".toList
      { baseSettings with contextualCascade := true, stripLineBreaks := true }
      2 false) = ("### A\n###### B".toList, false) ∧
    "### A\n###### B".toList ≠ "# A\n###### B".toList := by
  decide

/-- Claim C5 (spec-modelled: the `convertToSingleSpaced` implementation
is absent from the shipped markdownTransformer.ts): with single-spacing
enabled and empty-line removal disabled, the input `"A\n\n\n\nB\n\nC"`
is rewritten to `"A\n\nB\n\nC"` — the run of three blank lines collapses
to one, the single blank line and the non-blank lines are untouched. -/
theorem c5_single_spacing_collapse :
    (transformMarkdownSS noEval "A\n\n\n\nB\n\nC".toList baseSettings true 0 false).1 =
      "A\n\nB\n\nC".toList := by
  decide

theorem applyReps_skip (ev : RegexEval) :
    ∀ (pre : List (List Char × List Char)) (p : List Char × List Char)
      (post : List (List Char × List Char)) (s : List Char) (ap : Bool),
      ev p (applyReps ev pre s ap).1 = .error () →
      applyReps ev (pre ++ p :: post) s ap = applyReps ev (pre ++ post) s ap := by
  intro pre
  induction pre with
  | nil =>
    intro p post s ap h
    simp only [applyReps] at h
    simp only [List.nil_append, applyReps, h]
  | cons r rs ih =>
    intro p post s ap h
    simp only [applyReps] at h
    simp only [List.cons_append, applyReps]
    cases hre : ev r s with
    | ok s' =>
      rw [hre] at h
      exact ih p post s' (ap || (s' != s)) h
    | error e =>
      rw [hre] at h
      exact ih p post s ap h

/-- Claim C9: a replacement pair whose evaluation fails (pattern fails to
compile, or the substitution throws) is skipped: the string passes
through that pair unchanged, every remaining pair is still applied in
order, and both transforms still return normally — removing the failing
pair from the list does not change the result of `transformMarkdown` or
of the markup normalizer. -/
theorem c9_invalid_pattern_skipped :
    ∀ (ev : RegexEval) (pre : List (List Char × List Char))
      (p : List Char × List Char) (post : List (List Char × List Char))
      (s : List Char) (S : MdSettings) (SH : HtmlSettings)
      (parse : List Char → List HNode) (serialize : List HNode → List Char)
      (ctx : Nat) (esc : Bool),
      ev p (applyReps ev pre s false).1 = .error () →
      transformMarkdown ev s
          { S with markdownRegexReplacements := pre ++ p :: post } ctx esc =
        transformMarkdown ev s
          { S with markdownRegexReplacements := pre ++ post } ctx esc ∧
      transformHTML ev parse serialize s
          { SH with htmlRegexReplacements := pre ++ p :: post } =
        transformHTML ev parse serialize s
          { SH with htmlRegexReplacements := pre ++ post } := by
  intro ev pre p post s S SH parse serialize ctx esc h
  have key := applyReps_skip ev pre p post s false h
  constructor
  · simp only [transformMarkdown, mdStage2, key]
  · simp only [transformHTML, htmlSubst, htmlBreaks, key]

/-- Witness for C9 at a concrete failing pattern. -/
theorem c9_invalid_pattern_skipped_witness :
    transformMarkdown noEval "a".toList
        { baseSettings with markdownRegexReplacements := [([], [])] } 0 false =
      transformMarkdown noEval "a".toList baseSettings 0 false ∧
    transformHTML noEval (fun _ => []) (fun _ => []) "a".toList
        { htmlRegexReplacements := [([], [])], stripLineBreaks := false,
          removeEmptyElements := false } =
      transformHTML noEval (fun _ => []) (fun _ => []) "a".toList
        { htmlRegexReplacements := [], stripLineBreaks := false,
          removeEmptyElements := false } :=
  c9_invalid_pattern_skipped noEval [] ([], []) [] "a".toList baseSettings
    ⟨[], false, false⟩ (fun _ => []) (fun _ => []) 0 false rfl

/-- Claim C10: whenever line breaks are preserved (`stripLineBreaks`
false), the last step of `transformMarkdown` replaces every occurrence of
the literal token `___LINE_BREAK_PLACEHOLDER___` by a newline, so the
returned text never contains that token; and this collides with identical
user content — the concrete conjunct shows an input with no marker
paragraph whose literal placeholder text is turned into a newline. -/
theorem c10_placeholder_never_survives :
    (∀ (ev : RegexEval) (md : List Char) (S : MdSettings) (ctx : Nat) (esc : Bool),
      S.stripLineBreaks = false →
      containsSeq lineBreakPlaceholder (transformMarkdown ev md S ctx esc).1 = false) ∧
    (transformMarkdown noEval "x ___LINE_BREAK_PLACEHOLDER___ y".toList
      baseSettings 0 false).1 = "x \n y".toList := by
  constructor
  · intro ev md S ctx esc hstrip
    simp only [transformMarkdown, mdTail, hstrip, Bool.false_eq_true, if_false]
    exact replaceSeq_no_self (by decide) (by decide) _
  · decide

/-- Witness for the universally quantified part of C10. -/
theorem c10_placeholder_never_survives_witness :
    containsSeq lineBreakPlaceholder
      (transformMarkdown noEval "u ___LINE_BREAK_PLACEHOLDER___ v".toList
        baseSettings 0 false).1 = false :=
  c10_placeholder_never_survives.1 noEval
    "u ___LINE_BREAK_PLACEHOLDER___ v".toList baseSettings 0 false rfl

/-- Counterexample to claim C6 as stated: with `removeEmptyLines = true`
but line breaks preserved, an input containing the placeholder token (no
marker paragraph needed) yields an output with two blank lines, because
placeholder-bearing lines are exempt from the filter and the token is
then resolved into a newline. -/
theorem c6_counterexample_blank_lines_survive :
    (transformMarkdown noEval "A\n___LINE_BREAK_PLACEHOLDER___\nB".toList
      { baseSettings with removeEmptyLines := true } 0 false).1 =
      "A\n\n\nB".toList ∧
    ¬ blankFree "A\n\n\nB".toList := by
  decide

theorem mdTail_strip_remove (md : List Char) (ap : Bool) :
    (mdTail true true md ap).1 =
      joinNl ((splitOnNl (replaceSeq "\r\n".toList ['\n'] md)).filter
        (fun l => jsTrim l != [])) := rfl

theorem mdTail_preserve_remove (md : List Char) (ap : Bool) :
    (mdTail false true md ap).1 =
      replaceSeq lineBreakPlaceholder ['\n']
        (joinNl ((splitOnNl (replaceSeq "\r\n".toList ['\n']
            (pTagReplace pTagOpen2 (pTagReplace pTagOpen1 md)))).filter
          (fun l => jsTrim l != [] || containsSeq lineBreakPlaceholder l))) := rfl

/-- Claim C6, amended: with `removeEmptyLines = true` the output of
`transformMarkdown` contains no blank line provided line breaks are
stripped (any input), or line breaks are preserved and the text entering
the line-policy stage contains no line-break marker paragraph and no
literal placeholder token.  (The unamended claim — "regardless of whether
line breaks are stripped or preserved" for all inputs — fails on
marker/placeholder content, see the counterexample.) -/
theorem c6_remove_empty_lines_amended :
    ∀ (ev : RegexEval) (md : List Char) (S : MdSettings) (ctx : Nat) (esc : Bool),
      S.removeEmptyLines = true →
      (S.stripLineBreaks = true ∨
        (S.stripLineBreaks = false ∧
          pTagReplace pTagOpen1 (mdStage2 ev md S ctx esc).1 =
            (mdStage2 ev md S ctx esc).1 ∧
          pTagReplace pTagOpen2 (mdStage2 ev md S ctx esc).1 =
            (mdStage2 ev md S ctx esc).1 ∧
          containsSeq lineBreakPlaceholder (mdStage2 ev md S ctx esc).1 = false)) →
      blankFree (transformMarkdown ev md S ctx esc).1 := by
  intro ev md S ctx esc hrem hside
  have h0 : (transformMarkdown ev md S ctx esc).1 =
      (mdTail S.stripLineBreaks S.removeEmptyLines
        (mdStage2 ev md S ctx esc).1 (mdStage2 ev md S ctx esc).2).1 := rfl
  rcases hside with hstrip | ⟨hstrip, hm1, hm2, hph⟩
  · rw [h0, hstrip, hrem, mdTail_strip_remove]
    refine blankFree_filter_join (splitOnNl_mem_no_nl _) ?_
    intro l hl
    simpa using hl
  · rw [h0, hstrip, hrem, mdTail_preserve_remove, hm1, hm2]
    have hnlph : '\n' ∉ lineBreakPlaceholder := by decide
    have hneph : lineBreakPlaceholder ≠ [] := by decide
    have hphN : containsSeq lineBreakPlaceholder
        (replaceSeq "\r\n".toList ['\n'] (mdStage2 ev md S ctx esc).1) = false := by
      cases hq : containsSeq lineBreakPlaceholder
          (replaceSeq "\r\n".toList ['\n'] (mdStage2 ev md S ctx esc).1) with
      | false => rfl
      | true =>
        have ht := replaceSeq_contains_transfer hnlph hneph _ hq
        rw [ht] at hph
        exact hph
    have hlinefree : ∀ l ∈ splitOnNl (replaceSeq "\r\n".toList ['\n']
        (mdStage2 ev md S ctx esc).1),
        containsSeq lineBreakPlaceholder l = false := by
      intro l hl
      cases hq : containsSeq lineBreakPlaceholder l with
      | false => rfl
      | true =>
        rcases splitOnNl_part hl with ⟨a, b, hab⟩
        have ht := contains_of_part hab.symm.symm hq
        rw [ht] at hphN
        exact hphN
    rw [List.filter_congr (by
      intro l hl
      rw [hlinefree l hl, Bool.or_false])]
    have hjoinfree : containsSeq lineBreakPlaceholder
        (joinNl ((splitOnNl (replaceSeq "\r\n".toList ['\n']
          (mdStage2 ev md S ctx esc).1)).filter (fun l => jsTrim l != []))) = false := by
      cases hq : containsSeq lineBreakPlaceholder
          (joinNl ((splitOnNl (replaceSeq "\r\n".toList ['\n']
            (mdStage2 ev md S ctx esc).1)).filter (fun l => jsTrim l != []))) with
      | false => rfl
      | true =>
        rcases joinNl_contains_line hneph hnlph _ hq with ⟨l, hl, hcl⟩
        have hf := hlinefree l (List.mem_of_mem_filter hl)
        rw [hcl] at hf
        exact hf
    rw [replaceSeq_id hjoinfree]
    refine blankFree_filter_join (splitOnNl_mem_no_nl _) ?_
    intro l hl
    simpa using hl

/-- Witness for the amended C6 in the stripped-line-breaks branch. -/
theorem c6_remove_empty_lines_amended_witness :
    blankFree (transformMarkdown noEval "A\n\nB".toList
      { baseSettings with stripLineBreaks := true, removeEmptyLines := true }
      0 false).1 :=
  c6_remove_empty_lines_amended noEval "A\n\nB".toList
    { baseSettings with stripLineBreaks := true, removeEmptyLines := true }
    0 false rfl (Or.inl rfl)

/-! Lemmas about the heading scanner: a successful match decomposes the
string, and every match carries a level between 1 and 6. -/

theorem hashRun_cons_hash (cs : List Char) : hashRun ('#' :: cs) = hashRun cs + 1 := by
  simp [hashRun, List.takeWhile_cons]

theorem hashRun_cons_not {c : Char} (hc : ¬ c = '#') (cs : List Char) :
    hashRun (c :: cs) = 0 := by
  simp [hashRun, List.takeWhile_cons, hc]

theorem takeWhile_hash_eq (s : List Char) :
    s.takeWhile (fun c => c = '#') = List.replicate (hashRun s) '#' := by
  induction s with
  | nil => rfl
  | cons c cs ih =>
    by_cases hc : c = '#'
    · subst hc
      rw [hashRun_cons_hash, List.replicate_succ]
      simp [List.takeWhile_cons, ih]
    · rw [hashRun_cons_not hc]
      simp [List.takeWhile_cons, hc]

theorem takeWhile_length_drop {α : Type} (p : α → Bool) (l : List α) :
    l.drop (l.takeWhile p).length = l.dropWhile p := by
  induction l with
  | nil => rfl
  | cons c cs ih =>
    by_cases hc : p c = true
    · simp [List.takeWhile_cons, List.dropWhile_cons, hc, ih]
    · simp [List.takeWhile_cons, List.dropWhile_cons, hc]

theorem hashRun_decomp (s : List Char) :
    s = List.replicate (hashRun s) '#' ++ s.drop (hashRun s) := by
  conv_lhs => rw [← List.takeWhile_append_dropWhile
    (p := fun c => decide (c = '#')) (l := s)]
  rw [takeWhile_hash_eq]
  have : s.drop (hashRun s) = s.dropWhile (fun c => decide (c = '#')) := by
    rw [hashRun]
    exact takeWhile_length_drop _ s
  rw [this]

theorem matchHead_some {s : List Char} {n : Nat} {w : Char} {rest : List Char}
    (h : matchHead s = some (n, w, rest)) :
    1 ≤ n ∧ n ≤ 6 ∧ isJsSpace w = true ∧
      s = List.replicate n '#' ++ w :: rest := by
  simp only [matchHead] at h
  split at h
  · rename_i hb
    split at h
    · rename_i x w' rest' hd
      split at h
      · rename_i hws
        simp only [Option.some.injEq, Prod.mk.injEq] at h
        obtain ⟨hn, hw, hr⟩ := h
        subst hn; subst hw; subst hr
        refine ⟨hb.1, hb.2, hws, ?_⟩
        conv_lhs => rw [hashRun_decomp s]
        rw [hd]
      · exact Option.noConfusion h
    · exact Option.noConfusion h
  · exact Option.noConfusion h

theorem splitHeadsGo_levels (f : Nat) :
    ∀ (b : Bool) (s : List Char) (x : List Char × Nat × Char),
      x ∈ (splitHeadsGo f b s).1 → 1 ≤ x.2.1 ∧ x.2.1 ≤ 6 := by
  induction f with
  | zero => intro b s x hx; simp [splitHeadsGo] at hx
  | succ f ih =>
    intro b s x hx
    cases s with
    | nil => simp [splitHeadsGo] at hx
    | cons c cs =>
      by_cases hb : b
      · rcases hm : matchHead (c :: cs) with _ | ⟨n, w, rest⟩
        · rw [splitHeadsGo, if_pos hb, hm] at hx
          rcases hsp : splitHeadsGo f (isLineTerm c) cs with ⟨ms, t⟩
          rw [hsp] at hx
          cases ms with
          | nil => simp [splitCons] at hx
          | cons m ms' =>
            simp only [splitCons] at hx
            rcases List.mem_cons.mp hx with hx | hx
            · have hmem : m ∈ (splitHeadsGo f (isLineTerm c) cs).1 := by
                rw [hsp]; exact List.mem_cons_self m ms'
              have := ih (isLineTerm c) cs m hmem
              rcases m with ⟨seg, nn, ww⟩
              simp only [hx]
              simpa using this
            · have hmem : x ∈ (splitHeadsGo f (isLineTerm c) cs).1 := by
                rw [hsp]; exact List.mem_cons_of_mem m hx
              exact ih (isLineTerm c) cs x hmem
        · rw [splitHeadsGo, if_pos hb, hm] at hx
          simp only at hx
          rcases List.mem_cons.mp hx with hx | hx
          · obtain ⟨h1, h2, _, _⟩ := matchHead_some hm
            simp [hx, h1, h2]
          · exact ih (isLineTerm w) rest x hx
      · rw [splitHeadsGo, if_neg hb] at hx
        rcases hsp : splitHeadsGo f (isLineTerm c) cs with ⟨ms, t⟩
        rw [hsp] at hx
        cases ms with
        | nil => simp [splitCons] at hx
        | cons m ms' =>
          simp only [splitCons] at hx
          rcases List.mem_cons.mp hx with hx | hx
          · have hmem : m ∈ (splitHeadsGo f (isLineTerm c) cs).1 := by
              rw [hsp]; exact List.mem_cons_self m ms'
            have := ih (isLineTerm c) cs m hmem
            rcases m with ⟨seg, nn, ww⟩
            simp only [hx]
            simpa using this
          · have hmem : x ∈ (splitHeadsGo f (isLineTerm c) cs).1 := by
              rw [hsp]; exact List.mem_cons_of_mem m hx
            exact ih (isLineTerm c) cs x hmem

theorem splitHeads_levels {s : List Char} {x : List Char × Nat × Char}
    (hx : x ∈ (splitHeads true s).1) : 1 ≤ x.2.1 ∧ x.2.1 ≤ 6 :=
  splitHeadsGo_levels (s.length + 1) true s x hx

/-! The cascade state machines agree with the specification-level maps. -/

theorem toNat_min_six (x d : Nat) :
    (min ((x : Int) + (d : Int)) 6).toNat = min (x + d) 6 := by
  omega

theorem mapAccumHead_ctx_casc (ctx d : Nat) :
    ∀ (ls : List Nat) (ap : Bool),
      (mapAccumHead (ctxStep ctx) ⟨(d : Int), true, ap⟩ ls).1 =
        ls.map (fun x => min (x + d) 6) := by
  intro ls
  induction ls with
  | nil => intro ap; rfl
  | cons l ls ih =>
    intro ap
    have hstep : ctxStep ctx ⟨(d : Int), true, ap⟩ l =
        ((min ((l : Int) + (d : Int)) 6).toNat,
          ⟨(d : Int), true, (min ((l : Int) + (d : Int)) 6).toNat != l⟩) := by
      simp [ctxStep]
    simp only [mapAccumHead, hstep, List.map_cons, toNat_min_six]
    exact congrArg _ (ih _)

theorem mapAccumHead_ctx_main (ctx : Nat) :
    ∀ (ls : List Nat) (ap : Bool), (∀ l ∈ ls, l ≤ 6) →
      (mapAccumHead (ctxStep ctx) ⟨-1, false, ap⟩ ls).1 = ctxCascadeSpec ctx ls := by
  intro ls
  induction ls with
  | nil => intro ap _; rfl
  | cons l ls ih =>
    intro ap h
    by_cases hl : l ≤ ctx
    · have hl6 : l ≤ 6 := h l (List.mem_cons_self l ls)
      have hle : l ≤ min (ctx + 1) 6 := le_min (by omega) hl6
      have hstep : ctxStep ctx ⟨-1, false, ap⟩ l =
          (min (ctx + 1) 6,
            ⟨(min (ctx + 1) 6 : Int) - (l : Int), true, min (ctx + 1) 6 != l⟩) := by
        simp [ctxStep, hl]
      have hdelta : ((min (ctx + 1) 6 : Int) - (l : Int)) =
          ((min (ctx + 1) 6 - l : Nat) : Int) := by
        omega
      simp only [mapAccumHead, hstep, hdelta, mapAccumHead_ctx_casc]
      simp [ctxCascadeSpec, hl]
    · have hstep : ctxStep ctx ⟨-1, false, ap⟩ l = (l, ⟨-1, false, false⟩) := by
        simp [ctxStep, hl]
      simp only [mapAccumHead, hstep]
      rw [ih false (fun m hm => h m (List.mem_cons_of_mem l hm))]
      simp [ctxCascadeSpec, hl]

theorem mapAccumHead_max_casc (m d : Nat) :
    ∀ (ls : List Nat) (ap : Bool),
      (mapAccumHead (maxStep m true) ⟨(d : Int), true, ap⟩ ls).1 =
        ls.map (fun x => min (x + d) 6) := by
  intro ls
  induction ls with
  | nil => intro ap; rfl
  | cons l ls ih =>
    intro ap
    have hstep : maxStep m true ⟨(d : Int), true, ap⟩ l =
        ((min ((l : Int) + (d : Int)) 6).toNat,
          ⟨(d : Int), true, (min ((l : Int) + (d : Int)) 6).toNat != l⟩) := by
      simp [maxStep]
    simp only [mapAccumHead, hstep, List.map_cons, toNat_min_six]
    exact congrArg _ (ih _)

theorem mapAccumHead_max_main (m : Nat) :
    ∀ (ls : List Nat) (ap : Bool),
      (mapAccumHead (maxStep m true) ⟨-1, false, ap⟩ ls).1 = maxCascadeSpec m ls := by
  intro ls
  induction ls with
  | nil => intro ap; rfl
  | cons l ls ih =>
    intro ap
    by_cases hl : l < m
    · have hstep : maxStep m true ⟨-1, false, ap⟩ l =
          (m, ⟨(m : Int) - (l : Int), true, m != l⟩) := by
        simp [maxStep, hl]
      have hdelta : ((m : Int) - (l : Int)) = ((m - l : Nat) : Int) := by omega
      simp only [mapAccumHead, hstep, hdelta, mapAccumHead_max_casc]
      simp [maxCascadeSpec, hl]
    · have hstep : maxStep m true ⟨-1, false, ap⟩ l = (l, ⟨-1, false, false⟩) := by
        simp [maxStep, hl]
      simp only [mapAccumHead, hstep]
      rw [ih false]
      simp [maxCascadeSpec, hl]

theorem transformMarkdown_ctx_path (ev : RegexEval) (md : List Char) (mx : Nat)
    (cb : Bool) (ctx : Nat) (h : 0 < ctx) :
    (transformMarkdown ev md ⟨[], true, mx, cb, true, false⟩ ctx false).1 =
      renderHeads (splitHeads true md).1
        (mapAccumHead (ctxStep ctx) ⟨-1, false, false⟩
          (headLevels (splitHeads true md).1)).1
        (splitHeads true md).2 := by
  have hd : decide (0 < ctx) = true := decide_eq_true h
  simp only [transformMarkdown, mdStage2, applyReps, mdTail, headingReplace, hd,
    Bool.true_and, if_true, Bool.false_eq_true, if_false]

theorem transformMarkdown_max_path (ev : RegexEval) (md : List Char) (mx ctx : Nat)
    (h : 1 < mx) :
    (transformMarkdown ev md ⟨[], false, mx, true, true, false⟩ ctx false).1 =
      renderHeads (splitHeads true md).1
        (mapAccumHead (maxStep mx true) ⟨-1, false, false⟩
          (headLevels (splitHeads true md).1)).1
        (splitHeads true md).2 := by
  have hd : decide (1 < mx) = true := decide_eq_true h
  simp only [transformMarkdown, mdStage2, applyReps, mdTail, headingReplace, hd,
    Bool.false_and, if_true, Bool.false_eq_true, if_false]

theorem headLevels_le6 (md : List Char) :
    ∀ l ∈ headLevels (splitHeads true md).1, l ≤ 6 := by
  intro l hl
  rcases List.mem_map.mp hl with ⟨x, hx, hxl⟩
  exact hxl ▸ (splitHeads_levels hx).2

/-- Claim C3: with contextual cascade active (enabled, context level
positive, escape off, no other transformation configured), the heading
scan of `transformMarkdown` rewrites the sequence of matched headings
exactly as the specification's contextual-cascade map does: the first
heading with level ≤ contextLevel becomes min(contextLevel+1, 6) fixing
delta, later headings become min(old+delta, 6), and pre-cascade headings
above the context level are untouched.  In particular, at context level 2
each H1..H6 block becomes H3,H4,H5,H6,H6,H6. -/
theorem c3_contextual_cascade_refines_spec :
    (∀ (ev : RegexEval) (md : List Char) (mx : Nat) (cb : Bool) (ctx : Nat),
      0 < ctx →
      (transformMarkdown ev md ⟨[], true, mx, cb, true, false⟩ ctx false).1 =
        renderHeads (splitHeads true md).1
          (ctxCascadeSpec ctx (headLevels (splitHeads true md).1))
          (splitHeads true md).2) ∧
    (transformMarkdown noEval
      ("# Heading 1\n## Heading 2\n### Heading 3\n#### Heading 4\n##### Heading 5\n###### Heading 6\n\n# Heading 1\n## Heading 2\n### Heading 3\n#### Heading 4\n##### Heading 5\n###### Heading 6").toList
      ⟨[], true, 1, true, true, false⟩ 2 false).1 =
      ("### Heading 1\n#### Heading 2\n##### Heading 3\n###### Heading 4\n###### Heading 5\n###### Heading 6\n\n### Heading 1\n#### Heading 2\n##### Heading 3\n###### Heading 4\n###### Heading 5\n###### Heading 6").toList := by
  constructor
  · intro ev md mx cb ctx h
    rw [transformMarkdown_ctx_path ev md mx cb ctx h,
      mapAccumHead_ctx_main ctx _ false (headLevels_le6 md)]
  · decide

/-- Witness for the universally quantified part of C3. -/
theorem c3_contextual_cascade_refines_spec_witness :
    (transformMarkdown noEval "# A\n### B".toList ⟨[], true, 1, true, true, false⟩
      2 false).1 =
      renderHeads (splitHeads true "# A\n### B".toList).1
        (ctxCascadeSpec 2 (headLevels (splitHeads true "# A\n### B".toList).1))
        (splitHeads true "# A\n### B".toList).2 :=
  c3_contextual_cascade_refines_spec.1 noEval "# A\n### B".toList 1 true 2
    (by decide)

/-- Claim C4: with the contextual-cascade path inactive, a max heading
level above 1 and cascading enabled (escape off, no other transformation
configured), the heading scan rewrites the matched headings exactly as
the specification's standalone-cascade map does: the first heading below
the configured level is promoted to it, fixing delta, and all later
headings shift by delta clamped to 6.  In particular, with max level H3
each H1..H6 block becomes H3,H4,H5,H6,H6,H6. -/
theorem c4_max_cascade_refines_spec :
    (∀ (ev : RegexEval) (md : List Char) (mx ctx : Nat),
      1 < mx →
      (transformMarkdown ev md ⟨[], false, mx, true, true, false⟩ ctx false).1 =
        renderHeads (splitHeads true md).1
          (maxCascadeSpec mx (headLevels (splitHeads true md).1))
          (splitHeads true md).2) ∧
    (transformMarkdown noEval
      ("# Heading 1\n## Heading 2\n### Heading 3\n#### Heading 4\n##### Heading 5\n###### Heading 6\n\n# Heading 1\n## Heading 2\n### Heading 3\n#### Heading 4\n##### Heading 5\n###### Heading 6").toList
      ⟨[], false, 3, true, true, false⟩ 0 false).1 =
      ("### Heading 1\n#### Heading 2\n##### Heading 3\n###### Heading 4\n###### Heading 5\n###### Heading 6\n\n### Heading 1\n#### Heading 2\n##### Heading 3\n###### Heading 4\n###### Heading 5\n###### Heading 6").toList := by
  constructor
  · intro ev md mx ctx h
    rw [transformMarkdown_max_path ev md mx ctx h,
      mapAccumHead_max_main mx _ false]
  · decide

/-- Witness for the universally quantified part of C4. -/
theorem c4_max_cascade_refines_spec_witness :
    (transformMarkdown noEval "# A\n### B".toList ⟨[], false, 3, true, true, false⟩
      0 false).1 =
      renderHeads (splitHeads true "# A\n### B".toList).1
        (maxCascadeSpec 3 (headLevels (splitHeads true "# A\n### B".toList).1))
        (splitHeads true "# A\n### B".toList).2 :=
  c4_max_cascade_refines_spec.1 noEval "# A\n### B".toList 3 0 (by decide)

/-! Lemmas about the markup-tree passes: each pass's change indicator is
equivalent to an extensional statement about the tree. -/

theorem removeBrs_flag (ns : List HNode) : (removeBrs ns).2 = hasBrF ns := by
  induction ns using removeBrs.induct with
  | case1 => simp [removeBrs, hasBrF]
  | case2 ns ih => simp [removeBrs, hasBrF]
  | case3 s ns ih => simp [removeBrs, hasBrF, ih]
  | case4 t p ch ns ihc ihn => simp [removeBrs, hasBrF, ihc, ihn]

theorem replaceBrs_flag (ns : List HNode) : (replaceBrs ns).2 = hasBrF ns := by
  induction ns using replaceBrs.induct with
  | case1 => simp [replaceBrs, hasBrF]
  | case2 ns ih => simp [replaceBrs, hasBrF]
  | case3 s ns ih => simp [replaceBrs, hasBrF, ih]
  | case4 t p ch ns ihc ihn => simp [replaceBrs, hasBrF, ihc, ihn]

theorem pruneF_size_le (ns : List HNode) : sizeF (pruneF ns).1 ≤ sizeF ns := by
  induction ns using pruneF.induct with
  | case1 => simp [pruneF]
  | case2 s ns ih =>
    simp only [pruneF, sizeF]
    omega
  | case3 ns ih =>
    simp only [pruneF, sizeF]
    omega
  | case4 t p ch ns he ih =>
    simp only [pruneF, if_pos he, sizeF]
    omega
  | case5 t p ch ns he ih ihc =>
    simp only [pruneF, if_neg he, sizeF]
    omega

theorem pruneF_flag_lt (ns : List HNode) (h : (pruneF ns).2 = true) :
    sizeF (pruneF ns).1 < sizeF ns := by
  induction ns using pruneF.induct with
  | case1 => simp [pruneF] at h
  | case2 s ns ih =>
    simp only [pruneF, sizeF] at h ⊢
    have := ih h
    omega
  | case3 ns ih =>
    simp only [pruneF, sizeF] at h ⊢
    have := ih h
    omega
  | case4 t p ch ns he ih =>
    have h1 := pruneF_size_le ns
    simp only [pruneF, if_pos he, sizeF]
    omega
  | case5 t p ch ns he ih ihc =>
    simp only [pruneF, if_neg he, Bool.or_eq_true] at h
    have h1 := pruneF_size_le ns
    have h2 := pruneF_size_le ch
    simp only [pruneF, if_neg he, sizeF]
    rcases h with h | h
    · have := ih h
      omega
    · have := ihc h
      omega

theorem pruneF_flag_id (ns : List HNode) (h : (pruneF ns).2 = false) :
    (pruneF ns).1 = ns := by
  induction ns using pruneF.induct with
  | case1 => simp [pruneF]
  | case2 s ns ih =>
    simp only [pruneF] at h ⊢
    rw [ih h]
  | case3 ns ih =>
    simp only [pruneF] at h ⊢
    rw [ih h]
  | case4 t p ch ns he ih =>
    simp only [pruneF, if_pos he] at h
    exact Bool.noConfusion h
  | case5 t p ch ns he ih ihc =>
    simp only [pruneF, if_neg he, Bool.or_eq_false_iff] at h ⊢
    rw [ih h.1, ihc h.2]

theorem pruneF_changed_iff (ns : List HNode) :
    (pruneF ns).2 = true ↔ (pruneF ns).1 ≠ ns := by
  constructor
  · intro h heq
    have := pruneF_flag_lt ns h
    rw [heq] at this
    omega
  · intro h
    cases hf : (pruneF ns).2 with
    | false => exact absurd (pruneF_flag_id ns hf) h
    | true => rfl

theorem htmlBreaks_flag (S : HtmlSettings) (ns : List HNode) :
    (htmlBreaks S ns).2 = hasBrF ns := by
  rw [htmlBreaks]
  split
  · exact removeBrs_flag ns
  · exact replaceBrs_flag ns

/-- Claim C2 (spec-modelled: the pair-returning `transformHTML` consumed
by main.ts is absent from the shipped htmlTransformer.ts, which still
returns a bare string): the Markup Normalizer returns the cleaned HTML
string together with a changed flag, and — as the pair type itself
shows — the flag is true exactly when the pattern-substitution step
altered the string, the parsed tree contained a break node (every break
is removed or replaced by the line-break policy), or the empty-element
pruning removed a node (equivalently, changed the tree). -/
theorem c2_normalize_changed_flag :
    ∀ (ev : RegexEval) (parse : List Char → List HNode)
      (serialize : List HNode → List Char) (html : List Char) (S : HtmlSettings),
      ((transformHTML ev parse serialize html S).2 = true ↔
        ((htmlSubst ev S html).2 = true ∨
          hasBrF (parse (htmlSubst ev S html).1) = true ∨
          (S.removeEmptyElements = true ∧
            (pruneF (htmlBreaks S (parse (htmlSubst ev S html).1)).1).1 ≠
              (htmlBreaks S (parse (htmlSubst ev S html).1)).1))) := by
  intro ev parse serialize html S
  have hflag : (transformHTML ev parse serialize html S).2 =
      ((htmlSubst ev S html).2 ||
        (htmlBreaks S (parse (htmlSubst ev S html).1)).2 ||
        (if S.removeEmptyElements then
            pruneF (htmlBreaks S (parse (htmlSubst ev S html).1)).1
          else ((htmlBreaks S (parse (htmlSubst ev S html).1)).1, false)).2) := rfl
  rw [hflag, htmlBreaks_flag]
  cases hR : S.removeEmptyElements
  · simp
  · simp [Bool.or_eq_true, pruneF_changed_iff, or_assoc]

/-- Counterexample to claim C7 as stated: an occurrence inside an inline
code span is NOT passed through unescaped.  With escape mode on, the
input `` `*` `` comes out as `` \`\*\` `` — the asterisk inside the code
span is backslash-escaped (the second conjunct exhibits the escaped
asterisk in the output), because every pass except the HTML-tag wrapping
pass ignores code spans. -/
theorem c7_counterexample_span_content_escaped :
    (transformMarkdown noEval "`*`".toList baseSettings 0 true).1 =
      "\\`\\*\\`".toList ∧
    containsSeq "\\*".toList
      (transformMarkdown noEval "`*`".toList baseSettings 0 true).1 = true := by
  decide

/-- Claim C7, amended: escape mode prefixes every Markdown-significant
construct with a backslash — heading markers, emphasis markers, list
bullets, numbered-list markers, link and image openers, backticks,
blockquote markers, horizontal rules, table pipes, task-list checkboxes —
through eleven sequential global substitutions; occurrences inside inline
code spans are escaped like any others, and only the final HTML-tag
wrapping pass is code-span-aware (tags outside spans are wrapped in
backticks, content of spans passes that one pass unchanged).
Demonstrated per construct on concrete inputs through the full
`transformMarkdown` in escape mode. -/
theorem c7_escape_mode_amended :
    (transformMarkdown noEval "# H".toList baseSettings 0 true).1 =
      "\\# H".toList ∧
    (transformMarkdown noEval "**b** _i_".toList baseSettings 0 true).1 =
      "\\**b\\** \\_i\\_".toList ∧
    (transformMarkdown noEval "- item".toList baseSettings 0 true).1 =
      "\\- item".toList ∧
    (transformMarkdown noEval "3. item".toList baseSettings 0 true).1 =
      "\\3. item".toList ∧
    (transformMarkdown noEval "![x] [y](z)".toList baseSettings 0 true).1 =
      "\\![x] \\[y](z)".toList ∧
    (transformMarkdown noEval "`c`".toList baseSettings 0 true).1 =
      "\\`c\\`".toList ∧
    (transformMarkdown noEval "> q".toList baseSettings 0 true).1 =
      "\\> q".toList ∧
    (transformMarkdown noEval "---".toList baseSettings 0 true).1 =
      "\\---".toList ∧
    (transformMarkdown noEval "a|b".toList baseSettings 0 true).1 =
      "a\\|b".toList ∧
    (transformMarkdown noEval "- [ ] t".toList baseSettings 0 true).1 =
      "\\- \\[ ] t".toList ∧
    (transformMarkdown noEval "<b>x</b>".toList baseSettings 0 true).1 =
      "`<b>`x`</b>`".toList := by
  decide

/-! Lemmas toward the idempotence of the simple-cap mode (claim C8).
First: the scanner is fuel-irrelevant, and heading matches are exactly
the hash-run/whitespace decompositions. -/

theorem splitHeadsGo_fuel :
    ∀ (f g : Nat) (b : Bool) (s : List Char), s.length < f → s.length < g →
      splitHeadsGo f b s = splitHeadsGo g b s := by
  intro f
  induction f with
  | zero => intro g b s hf _; omega
  | succ f ih =>
    intro g b s hf hg
    cases g with
    | zero => omega
    | succ g =>
      cases s with
      | nil => simp [splitHeadsGo]
      | cons c cs =>
        have hcs : cs.length < f ∧ cs.length < g := by
          simp only [List.length_cons] at hf hg; omega
        cases b with
        | false =>
          simp only [splitHeadsGo, Bool.false_eq_true, if_false]
          rw [ih g (isLineTerm c) cs hcs.1 hcs.2]
        | true =>
          rcases hm : matchHead (c :: cs) with _ | ⟨n, w, rest⟩
          · simp only [splitHeadsGo, if_true, hm]
            rw [ih g (isLineTerm c) cs hcs.1 hcs.2]
          · have hdec := matchHead_some hm
            have hlen : rest.length + n + 1 = (c :: cs).length := by
              rw [hdec.2.2.2]
              simp [List.length_append, List.length_replicate]
              omega
            simp only [splitHeadsGo, if_true, hm]
            rw [ih g (isLineTerm w) rest (by omega) (by omega)]

theorem isJsSpace_ne_hash {c : Char} (h : isJsSpace c = true) : ¬ c = '#' := by
  intro hc
  subst hc
  exact absurd h (by decide)

theorem hashRun_replicate_append (n : Nat) {w : Char} (hw : ¬ w = '#')
    (rest : List Char) :
    hashRun (List.replicate n '#' ++ w :: rest) = n := by
  induction n with
  | zero => simpa using hashRun_cons_not hw rest
  | succ n ih =>
    rw [List.replicate_succ, List.cons_append, hashRun_cons_hash, ih]

theorem matchHead_repl {n : Nat} (h1 : 1 ≤ n) (h6 : n ≤ 6) {w : Char}
    (hw : isJsSpace w = true) (rest : List Char) :
    matchHead (List.replicate n '#' ++ w :: rest) = some (n, w, rest) := by
  have hr : hashRun (List.replicate n '#' ++ w :: rest) = n :=
    hashRun_replicate_append n (isJsSpace_ne_hash hw) rest
  have hdrop : (List.replicate n '#' ++ w :: rest).drop n = w :: rest := by
    have := List.drop_left (List.replicate n '#') (w :: rest)
    rwa [List.length_replicate] at this
  simp only [matchHead, hr, hdrop]
  rw [if_pos ⟨h1, h6⟩, if_pos hw]

theorem headMatch_isSome {s : List Char} :
    (matchHead s).isSome = true ↔
      ∃ n w rest, s = List.replicate n '#' ++ w :: rest ∧
        1 ≤ n ∧ n ≤ 6 ∧ isJsSpace w = true := by
  constructor
  · intro h
    rcases ho : matchHead s with _ | ⟨n, w, rest⟩
    · rw [ho] at h; simp at h
    · obtain ⟨h1, h6, hw, hs⟩ := matchHead_some ho
      exact ⟨n, w, rest, hs, h1, h6, hw⟩
  · rintro ⟨n, w, rest, hs, h1, h6, hw⟩
    rw [hs, matchHead_repl h1 h6 hw]
    rfl

theorem repl_decomp_unique :
    ∀ (a b : Nat) (x y : Char) (X Y : List Char), ¬ x = '#' → ¬ y = '#' →
      List.replicate a '#' ++ x :: X = List.replicate b '#' ++ y :: Y →
      a = b ∧ x = y ∧ X = Y := by
  intro a
  induction a with
  | zero =>
    intro b x y X Y hx hy h
    cases b with
    | zero =>
      simp only [List.replicate_zero, List.nil_append, List.cons.injEq] at h
      exact ⟨rfl, h.1, h.2⟩
    | succ b =>
      rw [List.replicate_succ] at h
      simp only [List.replicate_zero, List.nil_append, List.cons_append,
        List.cons.injEq] at h
      exact absurd h.1 hx
  | succ a ih =>
    intro b x y X Y hx hy h
    cases b with
    | zero =>
      rw [List.replicate_succ] at h
      simp only [List.replicate_zero, List.nil_append, List.cons_append,
        List.cons.injEq] at h
      exact absurd h.1.symm hy
    | succ b =>
      rw [List.replicate_succ, List.replicate_succ] at h
      simp only [List.cons_append, List.cons.injEq] at h
      obtain ⟨hab, hxy, hXY⟩ := ih b x y X Y hx hy h.2
      exact ⟨by omega, hxy, hXY⟩

theorem dropWhile_head_false {α : Type} (p : α → Bool) :
    ∀ (l : List α) (d : α) (v : List α), l.dropWhile p = d :: v → p d = false := by
  intro l
  induction l with
  | nil => intro d v h; simp [List.dropWhile] at h
  | cons c cs ih =>
    intro d v h
    by_cases hc : p c = true
    · rw [List.dropWhile_cons, if_pos hc] at h
      exact ih d v h
    · rw [List.dropWhile_cons, if_neg hc] at h
      obtain ⟨h1, _⟩ := List.cons.injEq _ _ _ _ ▸ h
      have h1 : c = d := by
        simpa using congrArg (fun l => l.head?) h
      rw [← h1]
      simpa using hc

theorem headMatch_congr {u : List Char} (hu : u ≠ []) {l l' : Nat} (hll : l ≤ l')
    (hl1 : 1 ≤ l) {w w' : Char} (hw : isJsSpace w = true) (hw' : isJsSpace w' = true)
    (A B : List Char)
    (h : (matchHead (u ++ (List.replicate l' '#' ++ w' :: B))).isSome = true) :
    (matchHead (u ++ (List.replicate l '#' ++ w :: A))).isSome = true := by
  rcases headMatch_isSome.mp h with ⟨nn, ws, rest, heq, h1, h6, hws⟩
  have hu_decomp := hashRun_decomp u
  rcases hd : u.drop (hashRun u) with _ | ⟨d, v⟩
  · have hu_repl : u = List.replicate (hashRun u) '#' := by
      conv_lhs => rw [hu_decomp]
      rw [hd, List.append_nil]
    have hk1 : 1 ≤ hashRun u := by
      rcases Nat.eq_zero_or_pos (hashRun u) with h0 | h0
      · rw [h0] at hu_repl; simp at hu_repl; exact absurd hu_repl hu
      · exact h0
    have hnew : List.replicate (hashRun u + l') '#' ++ w' :: B =
        List.replicate nn '#' ++ ws :: rest := by
      rw [List.replicate_add, List.append_assoc, ← hu_repl]
      exact heq
    obtain ⟨hnn, _, _⟩ := repl_decomp_unique _ _ _ _ _ _
      (isJsSpace_ne_hash hw') (isJsSpace_ne_hash hws) hnew
    apply headMatch_isSome.mpr
    refine ⟨hashRun u + l, w, A, ?_, by omega, by omega, hw⟩
    rw [List.replicate_add, List.append_assoc, ← hu_repl]
  · have hdw : u.dropWhile (fun c => decide (c = '#')) = d :: v := by
      rw [← takeWhile_length_drop (fun c => decide (c = '#')) u]
      exact hd
    have hdn : ¬ d = '#' := by
      have := dropWhile_head_false (fun c => decide (c = '#')) u d v hdw
      simpa using this
    have hu_split : u = List.replicate (hashRun u) '#' ++ d :: v := by
      conv_lhs => rw [hu_decomp]
      rw [hd]
    have hnew : List.replicate (hashRun u) '#' ++
        d :: (v ++ (List.replicate l' '#' ++ w' :: B)) =
        List.replicate nn '#' ++ ws :: rest := by
      rw [← List.cons_append, ← List.append_assoc, ← hu_split]
      exact heq
    obtain ⟨hnn, hdws, _⟩ := repl_decomp_unique _ _ _ _ _ _
      hdn (isJsSpace_ne_hash hws) hnew
    apply headMatch_isSome.mpr
    refine ⟨hashRun u, d, v ++ (List.replicate l '#' ++ w :: A), ?_, by omega,
      by omega, by rw [hdws]; exact hws⟩
    conv_rhs => rw [← List.cons_append, ← List.append_assoc, ← hu_split]

theorem segScan_cons (b : Bool) (c : Char) (cs fw : List Char) :
    segScan b (c :: cs) fw = true ↔
      ((b && (matchHead (c :: (cs ++ fw))).isSome) = false ∧
        segScan (isLineTerm c) cs fw = true) := by
  rw [segScan]
  by_cases hx : (b && (matchHead (c :: (cs ++ fw))).isSome) = true
  · rw [if_pos hx]
    simp [hx]
  · rw [if_neg hx]
    simp only [Bool.not_eq_true] at hx
    simp [hx]

theorem segScan_false_of_true {seg fw : List Char} (h : segScan true seg fw = true) :
    segScan false seg fw = true := by
  cases seg with
  | nil => rfl
  | cons c cs =>
    rcases (segScan_cons true c cs fw).mp h with ⟨_, h2⟩
    exact (segScan_cons false c cs fw).mpr ⟨by simp, h2⟩

theorem segScan_of_or {seg fw : List Char} {b b' : Bool}
    (h : segScan b seg fw = true) (hor : b' = b ∨ b' = false) :
    segScan b' seg fw = true := by
  rcases hor with rfl | rfl
  · exact h
  · cases b with
    | false => exact h
    | true => exact segScan_false_of_true h

theorem endStat_cons (b : Bool) (c : Char) (seg : List Char) :
    endStat b (c :: seg) = endStat (isLineTerm c) seg := rfl

theorem segScan_congr :
    ∀ (seg : List Char) (b : Bool) {l l' : Nat}, l ≤ l' → 1 ≤ l →
      ∀ {w w' : Char}, isJsSpace w = true → isJsSpace w' = true →
      ∀ (A B : List Char),
      segScan b seg (List.replicate l '#' ++ w :: A) = true →
      segScan b seg (List.replicate l' '#' ++ w' :: B) = true := by
  intro seg
  induction seg with
  | nil => intros; rfl
  | cons c cs ih =>
    intro b l l' hll hl1 w w' hw hw' A B h
    rcases (segScan_cons _ _ _ _).mp h with ⟨h1, h2⟩
    apply (segScan_cons _ _ _ _).mpr
    refine ⟨?_, ih (isLineTerm c) hll hl1 hw hw' A B h2⟩
    cases hb : b
    · simp
    · rw [hb] at h1
      simp only [Bool.true_and] at h1 ⊢
      cases hnew : (matchHead (c :: (cs ++ (List.replicate l' '#' ++ w' :: B)))).isSome
      · rfl
      · exfalso
        have hold := headMatch_congr (u := c :: cs) (by simp) hll hl1 hw hw' A B
          (by rw [List.cons_append]; exact hnew)
        rw [List.cons_append] at hold
        rw [hold] at h1
        exact Bool.noConfusion h1

theorem sound_splitCons {c : Char} {cs : List Char} {b : Bool}
    (ms : List (List Char × Nat × Char)) (t : List Char)
    (hS : Sound (isLineTerm c) ms t) (hA : assembleHeads ms t = cs)
    (hcond : (b && (matchHead (c :: cs)).isSome) = false) :
    Sound b (splitCons c (ms, t)).1 (splitCons c (ms, t)).2 ∧
      assembleHeads (splitCons c (ms, t)).1 (splitCons c (ms, t)).2 = c :: cs := by
  cases ms with
  | nil =>
    simp only [assembleHeads] at hA
    simp only [Sound] at hS
    simp only [splitCons, Sound, assembleHeads]
    subst hA
    constructor
    · apply (segScan_cons _ _ _ _).mpr
      constructor
      · rw [List.append_nil]
        exact hcond
      · exact hS
    · rfl
  | cons x ms' =>
    rcases x with ⟨seg, l, w⟩
    simp only [assembleHeads] at hA
    simp only [Sound] at hS
    simp only [splitCons, Sound, assembleHeads, List.cons_append]
    obtain ⟨s1, s2, s3, s4, s5, s6⟩ := hS
    constructor
    · refine ⟨?_, ?_, s3, s4, s5, s6⟩
      · apply (segScan_cons _ _ _ _).mpr
        refine ⟨?_, s1⟩
        rw [← List.append_assoc, hA]
        exact hcond
      · exact s2
    · rw [hA]

theorem splitHeadsGo_sound :
    ∀ (f : Nat) (b : Bool) (s : List Char), s.length < f →
      Sound b (splitHeadsGo f b s).1 (splitHeadsGo f b s).2 ∧
      assembleHeads (splitHeadsGo f b s).1 (splitHeadsGo f b s).2 = s := by
  intro f
  induction f with
  | zero => intro b s h; omega
  | succ f ih =>
    intro b s hlen
    cases s with
    | nil => exact ⟨rfl, rfl⟩
    | cons c cs =>
      have hcs : cs.length < f := by
        simp only [List.length_cons] at hlen; omega
      cases b with
      | false =>
        have hgo : splitHeadsGo (f + 1) false (c :: cs) =
            splitCons c (splitHeadsGo f (isLineTerm c) cs) := by
          simp [splitHeadsGo]
        obtain ⟨ihS, ihA⟩ := ih (isLineTerm c) cs hcs
        rw [hgo]
        exact sound_splitCons _ _ ihS ihA (by simp)
      | true =>
        rcases hm : matchHead (c :: cs) with _ | ⟨n, w, rest⟩
        · have hgo : splitHeadsGo (f + 1) true (c :: cs) =
              splitCons c (splitHeadsGo f (isLineTerm c) cs) := by
            simp [splitHeadsGo, hm]
          obtain ⟨ihS, ihA⟩ := ih (isLineTerm c) cs hcs
          rw [hgo]
          exact sound_splitCons _ _ ihS ihA (by simp [hm])
        · obtain ⟨h1, h6, hw, hdecomp⟩ := matchHead_some hm
          have hrest : rest.length < f := by
            have : (c :: cs).length = n + (rest.length + 1) := by
              rw [hdecomp]
              simp [List.length_append, List.length_replicate]
            simp only [List.length_cons] at hlen this
            omega
          have hgo : splitHeadsGo (f + 1) true (c :: cs) =
              (([], n, w) :: (splitHeadsGo f (isLineTerm w) rest).1,
                (splitHeadsGo f (isLineTerm w) rest).2) := by
            simp [splitHeadsGo, hm]
          obtain ⟨ihS, ihA⟩ := ih (isLineTerm w) rest hrest
          rw [hgo]
          constructor
          · exact ⟨rfl, rfl, h1, h6, hw, ihS⟩
          · show [] ++ List.replicate n '#' ++ w :: assembleHeads _ _ = c :: cs
            rw [List.nil_append, ihA, ← hdecomp]

theorem splitHeadsGo_nil :
    ∀ (f : Nat) (b b' : Bool) (t : List Char), t.length < f →
      segScan b t [] = true → (b' = b ∨ b' = false) →
      splitHeadsGo f b' t = ([], t) := by
  intro f
  induction f with
  | zero => intro b b' t hlen; omega
  | succ f ih =>
    intro b b' t hlen hseg hor
    cases t with
    | nil => rfl
    | cons c cs =>
      have hcs : cs.length < f := by
        simp only [List.length_cons] at hlen; omega
      rcases (segScan_cons b c cs []).mp hseg with ⟨h1, h2⟩
      rw [List.append_nil] at h1
      have hrec := ih (isLineTerm c) (isLineTerm c) cs hcs h2 (Or.inl rfl)
      cases b' with
      | false =>
        have hgo : splitHeadsGo (f + 1) false (c :: cs) =
            splitCons c (splitHeadsGo f (isLineTerm c) cs) := by
          simp [splitHeadsGo]
        rw [hgo, hrec]
        rfl
      | true =>
        have hb : b = true := by
          rcases hor with h | h
          · exact h.symm
          · exact Bool.noConfusion h
        rw [hb, Bool.true_and] at h1
        have hnone : matchHead (c :: cs) = none := by
          cases hmm : matchHead (c :: cs) with
          | none => rfl
          | some x => rw [hmm] at h1; simp at h1
        have hgo : splitHeadsGo (f + 1) true (c :: cs) =
            splitCons c (splitHeadsGo f (isLineTerm c) cs) := by
          simp [splitHeadsGo, hnone]
        rw [hgo, hrec]
        rfl

theorem splitHeads_nil {b b' : Bool} (t : List Char) (hseg : segScan b t [] = true)
    (hor : b' = b ∨ b' = false) : splitHeads b' t = ([], t) :=
  splitHeadsGo_nil (t.length + 1) b b' t (Nat.lt_succ_self _) hseg hor

theorem splitHeads_sound (b : Bool) (s : List Char) :
    Sound b (splitHeads b s).1 (splitHeads b s).2 ∧
      assembleHeads (splitHeads b s).1 (splitHeads b s).2 = s :=
  splitHeadsGo_sound (s.length + 1) b s (Nat.lt_succ_self _)

theorem splitHeadsGo_match :
    ∀ (seg : List Char) (f : Nat) (b : Bool) (v : List Char) {l : Nat} {w : Char}
      {u : List Char},
      (seg ++ v).length < f → segScan b seg v = true → endStat b seg = true →
      matchHead v = some (l, w, u) →
      splitHeadsGo f b (seg ++ v) =
        ((seg, l, w) :: (splitHeads (isLineTerm w) u).1,
          (splitHeads (isLineTerm w) u).2) := by
  intro seg
  induction seg with
  | nil =>
    intro f b v l w u hlen hseg hend hm
    have hb : b = true := hend
    subst hb
    obtain ⟨h1, h6, hw, hv⟩ := matchHead_some hm
    rw [List.nil_append] at hlen ⊢
    cases f with
    | zero => omega
    | succ f =>
      cases v with
      | nil =>
        exfalso
        have := congrArg List.length hv
        simp [List.length_append, List.length_replicate] at this
        omega
      | cons c cs =>
        have hulen : u.length < f := by
          have := congrArg List.length hv
          simp only [List.length_cons, List.length_append,
            List.length_replicate] at this hlen
          omega
        have hgo : splitHeadsGo (f + 1) true (c :: cs) =
            (([], l, w) :: (splitHeadsGo f (isLineTerm w) u).1,
              (splitHeadsGo f (isLineTerm w) u).2) := by
          simp [splitHeadsGo, hm]
        rw [hgo, splitHeadsGo_fuel f (u.length + 1) (isLineTerm w) u hulen
          (Nat.lt_succ_self _)]
        rfl
  | cons c cs ih =>
    intro f b v l w u hlen hseg hend hm
    rcases (segScan_cons b c cs v).mp hseg with ⟨h1, h2⟩
    have hend' : endStat (isLineTerm c) cs = true := hend
    cases f with
    | zero => omega
    | succ f =>
      have hlen' : (cs ++ v).length < f := by
        simp only [List.cons_append, List.length_cons] at hlen
        omega
      have hrec := ih f (isLineTerm c) v hlen' h2 hend' hm
      rw [List.cons_append]
      cases b with
      | false =>
        have hgo : splitHeadsGo (f + 1) false (c :: (cs ++ v)) =
            splitCons c (splitHeadsGo f (isLineTerm c) (cs ++ v)) := by
          simp [splitHeadsGo]
        rw [hgo, hrec]
        rfl
      | true =>
        rw [Bool.true_and] at h1
        have hnone : matchHead (c :: (cs ++ v)) = none := by
          cases hmm : matchHead (c :: (cs ++ v)) with
          | none => rfl
          | some x => rw [hmm] at h1; simp at h1
        have hgo : splitHeadsGo (f + 1) true (c :: (cs ++ v)) =
            splitCons c (splitHeadsGo f (isLineTerm c) (cs ++ v)) := by
          simp [splitHeadsGo, hnone]
        rw [hgo, hrec]
        rfl

theorem splitHeads_match (seg : List Char) (b : Bool) (v : List Char) {l : Nat}
    {w : Char} {u : List Char} (hseg : segScan b seg v = true)
    (hend : endStat b seg = true) (hm : matchHead v = some (l, w, u)) :
    splitHeads b (seg ++ v) =
      ((seg, l, w) :: (splitHeads (isLineTerm w) u).1,
        (splitHeads (isLineTerm w) u).2) :=
  splitHeadsGo_match seg ((seg ++ v).length + 1) b v (Nat.lt_succ_self _) hseg
    hend hm

theorem splitHeadsGo_consume :
    ∀ (u : List Char) (f : Nat) (v : List Char), (u ++ v).length < f →
      (∀ c ∈ u, isLineTerm c = false) →
      splitHeadsGo f false (u ++ v) = List.foldr splitCons (splitHeads false v) u := by
  intro u
  induction u with
  | nil =>
    intro f v hlen _
    simp only [List.nil_append, List.foldr_nil]
    exact splitHeadsGo_fuel f (v.length + 1) false v (by simpa using hlen)
      (Nat.lt_succ_self _)
  | cons c u' ih =>
    intro f v hlen hterm
    cases f with
    | zero =>
      simp only [List.cons_append, List.length_cons] at hlen
      omega
    | succ f =>
      rw [List.cons_append]
      have hgo : splitHeadsGo (f + 1) false (c :: (u' ++ v)) =
          splitCons c (splitHeadsGo f (isLineTerm c) (u' ++ v)) := by
        simp [splitHeadsGo]
      rw [hgo, hterm c (List.mem_cons_self c u')]
      rw [ih f v (by simp only [List.cons_append, List.length_cons] at hlen; omega)
        (fun x hx => hterm x (List.mem_cons_of_mem c hx))]
      rfl

theorem splitHeads_consume (u v : List Char)
    (hterm : ∀ c ∈ u, isLineTerm c = false) :
    splitHeads false (u ++ v) = List.foldr splitCons (splitHeads false v) u :=
  splitHeadsGo_consume u ((u ++ v).length + 1) v (Nat.lt_succ_self _) hterm

theorem capRender_pair (m : Nat) :
    ∀ (ms : List (List Char × Nat × Char)) (t : List Char),
      capRender m (ms, t) = capAssemble m ms t := by
  intro ms
  induction ms with
  | nil => intro t; rfl
  | cons x ms ih =>
    rcases x with ⟨seg, l, w⟩
    intro t
    have ih' := ih t
    simp only [capRender, headLevels, List.map_cons, renderHeads] at ih' ⊢
    rw [ih']
    rfl

theorem capRender_cons (m : Nat) (seg : List Char) (l : Nat) (w : Char)
    (r : List (List Char × Nat × Char) × List Char) :
    capRender m ((seg, l, w) :: r.1, r.2) =
      seg ++ (List.replicate (max l m) '#' ++ ' ' :: capRender m r) := by
  simp only [capRender, headLevels, List.map_cons, renderHeads, List.append_assoc]

theorem capRender_splitCons (m : Nat) (c : Char)
    (r : List (List Char × Nat × Char) × List Char) :
    capRender m (splitCons c r) = c :: capRender m r := by
  rcases r with ⟨ms, t⟩
  cases ms with
  | nil => rfl
  | cons x ms =>
    rcases x with ⟨seg, l, w⟩
    rfl

theorem capRender_foldr (m : Nat) :
    ∀ (u : List Char) (r : List (List Char × Nat × Char) × List Char),
      capRender m (List.foldr splitCons r u) = u ++ capRender m r := by
  intro u
  induction u with
  | nil => intro r; rfl
  | cons c u' ih =>
    intro r
    simp only [List.foldr_cons]
    rw [capRender_splitCons, ih]
    rfl

theorem mapAccumHead_cap (m : Nat) :
    ∀ (ls : List Nat) (st : HeadSt),
      (mapAccumHead (maxStep m false) st ls).1 = ls.map (fun l => max l m) := by
  intro ls
  induction ls with
  | nil => intro st; rfl
  | cons l ls ih =>
    intro st
    have hstep : maxStep m false st l = (max l m, { st with ap := max l m != l }) := by
      simp [maxStep]
    simp only [mapAccumHead, hstep, List.map_cons]
    exact congrArg _ (ih _)

theorem capFix (m : Nat) (hm6 : m ≤ 6) :
    ∀ (ms : List (List Char × Nat × Char)) (t : List Char) (b b' : Bool),
      Sound b ms t → (b' = b ∨ b' = false) →
      capRender m (splitHeads b' (capAssemble m ms t)) = capAssemble m ms t := by
  intro ms
  induction ms with
  | nil =>
    intro t b b' hS hor
    simp only [Sound] at hS
    simp only [capAssemble]
    rw [splitHeads_nil t hS hor]
    rfl
  | cons x ms' ih =>
    rcases x with ⟨seg, l, w⟩
    intro t b b' hS hor
    simp only [Sound] at hS
    obtain ⟨s1, s2, s3, s4, s5, s6⟩ := hS
    simp only [capAssemble]
    have hm' : matchHead (List.replicate (max l m) '#' ++
        ' ' :: capAssemble m ms' t) = some (max l m, ' ', capAssemble m ms' t) :=
      matchHead_repl (by omega) (by omega) (by decide) _
    have hseg' : segScan b' seg (List.replicate (max l m) '#' ++
        ' ' :: capAssemble m ms' t) = true :=
      segScan_of_or (segScan_congr seg b (le_max_left l m) s3 s5 (by decide) _ _ s1)
        hor
    rw [List.append_assoc]
    by_cases hend' : endStat b' seg = true
    · rw [splitHeads_match seg b' _ hseg' hend' hm']
      have hsp : isLineTerm ' ' = false := rfl
      rw [hsp]
      rw [capRender_cons]
      rw [ih t (isLineTerm w) false s6 (Or.inr rfl)]
      have hmm : max (max l m) m = max l m := by omega
      rw [hmm]
    · have hsegnil : seg = [] := by
        cases hsg : seg with
        | nil => rfl
        | cons c cs =>
          exfalso
          apply hend'
          rw [hsg, endStat_cons]
          rw [hsg, endStat_cons] at s2
          exact s2
      subst hsegnil
      have hb' : b' = false := by
        simp only [endStat] at hend'
        simpa using hend'
      subst hb'
      simp only [List.nil_append]
      have hterm : ∀ c ∈ List.replicate (max l m) '#' ++ [' '],
          isLineTerm c = false := by
        intro c hc
        rcases List.mem_append.mp hc with hc | hc
        · rw [List.eq_of_mem_replicate hc]; rfl
        · simp only [List.mem_singleton] at hc
          rw [hc]; rfl
      have hsplit : List.replicate (max l m) '#' ++ ' ' :: capAssemble m ms' t =
          (List.replicate (max l m) '#' ++ [' ']) ++ capAssemble m ms' t := by
        simp
      rw [hsplit, splitHeads_consume _ _ hterm, capRender_foldr]
      rw [ih t (isLineTerm w) false s6 (Or.inr rfl)]

theorem transformMarkdown_cap_path (ev : RegexEval) (md : List Char) (m ctx : Nat)
    (h : 1 < m) :
    (transformMarkdown ev md ⟨[], false, m, false, true, false⟩ ctx false).1 =
      capRender m (splitHeads true md) := by
  have hd : decide (1 < m) = true := decide_eq_true h
  simp only [transformMarkdown, mdStage2, applyReps, mdTail, headingReplace, hd,
    Bool.false_and, if_true, Bool.false_eq_true, if_false]
  rw [mapAccumHead_cap]
  rfl

/-- Claim C8: in standalone simple-cap mode (contextual cascade path
inactive, max heading level above 1, cascading disabled, escape off, no
other transformation configured, and the configured level within the
spec's [1,6] range), `transformMarkdown` is idempotent on the text: a
second application returns the first application's text unchanged. -/
theorem c8_simple_cap_idempotent :
    ∀ (ev ev' : RegexEval) (md : List Char) (m ctx ctx' : Nat),
      1 < m → m ≤ 6 →
      (transformMarkdown ev'
        (transformMarkdown ev md ⟨[], false, m, false, true, false⟩ ctx false).1
        ⟨[], false, m, false, true, false⟩ ctx' false).1 =
      (transformMarkdown ev md ⟨[], false, m, false, true, false⟩ ctx false).1 := by
  intro ev ev' md m ctx ctx' hm1 hm6
  rw [transformMarkdown_cap_path ev md m ctx hm1,
    transformMarkdown_cap_path ev' _ m ctx' hm1]
  obtain ⟨hS, hA⟩ := splitHeads_sound true md
  have hpr : capRender m (splitHeads true md) =
      capAssemble m (splitHeads true md).1 (splitHeads true md).2 :=
    capRender_pair m _ _
  rw [hpr]
  exact capFix m hm6 _ _ true true hS (Or.inl rfl)

/-- Witness for C8 at a concrete input and level. -/
theorem c8_simple_cap_idempotent_witness :
    (transformMarkdown noEval
      (transformMarkdown noEval "# A\n#### B".toList
        ⟨[], false, 3, false, true, false⟩ 0 false).1
      ⟨[], false, 3, false, true, false⟩ 0 false).1 =
    (transformMarkdown noEval "# A\n#### B".toList
      ⟨[], false, 3, false, true, false⟩ 0 false).1 :=
  c8_simple_cap_idempotent noEval noEval "# A\n#### B".toList 3 0 0 (by decide)
    (by decide)

end PasteReformatter
